import Mathlib

/-!
# Verification of the lem-in core (vertex-disjoint path extractor + ant scheduler)

Shallow embedding of the Go sources of the `lem-in` repository:

* `internal/model` (Room / Graph / Path, AddRoom, AddLink),
* `internal/parser` (Parse: line grammar, phases, start/end markers),
* `internal/path` (MultiPath: node-split residual network, Edmonds–Karp,
  flow-decomposition path reconstruction),
* `internal/scheduler` (Run: (L−1) pre-allocation balancer and the
  turn-by-turn room-exclusive simulator),
* `main.go` (echo, no-path error message, exit code).

Go maps are embedded as association lists / functions; Go `int` as `Int`
(values stay far below 2^63 on the loops modelled here, except where an
explicit range check of the source is reproduced); unbounded `for` loops as
fuelled recursion together with lemmas that the fuel chosen suffices.
-/

namespace LemIn

/-! ## The data model (`internal/model/model.go`)

Rooms in Go are heap objects referenced by pointers; the room name is unique
in `Graph.Rooms` (the parser rejects duplicates and `AddRoom` never
overwrites), so a pointer is faithfully represented by the room name and
`Links []*Room` by the list of neighbour names. The Go map
`Rooms map[string]*Room` is represented by an association list keyed by name;
its (randomised) iteration order is the list order, which `MultiPath` sorts
away. -/

structure Room where
  Name : String
  X : Int
  Y : Int
  Links : List String
deriving DecidableEq, Repr

structure Graph where
  Rooms : List (String × Room)
  Start : Option String
  End : Option String
deriving DecidableEq, Repr

structure Path where
  Rooms : List String
  Length : Nat
deriving DecidableEq, Repr

def NewGraph : Graph := ⟨[], none, none⟩

/-- `g.Rooms[name]` of the Go map. -/
def Graph.findRoom (g : Graph) (name : String) : Option Room :=
  g.Rooms.lookup name

/-- `Graph.AddRoom`: if the name is present, return the stored room and leave
the graph unchanged; otherwise insert a fresh room and return it. -/
def Graph.AddRoom (g : Graph) (name : String) (x y : Int) : Graph × Room :=
  match g.findRoom name with
  | some r => (g, r)
  | none =>
      let r : Room := ⟨name, x, y, []⟩
      ({ g with Rooms := g.Rooms ++ [(name, r)] }, r)

/-- Update the room stored under `name` (the Go code mutates through the
pointer held in the map). -/
def Graph.updRoom (g : Graph) (name : String) (f : Room → Room) : Graph :=
  { g with Rooms := g.Rooms.map (fun p => if p.1 = name then (p.1, f p.2) else p) }

/-- `Graph.AddLink`: fails if an endpoint is unknown, the endpoints are equal,
or the link is already present; otherwise appends each room to the other's
neighbour list. -/
def Graph.AddLink (g : Graph) (a b : String) : Graph × Bool :=
  match g.findRoom a, g.findRoom b with
  | some ra, some _ =>
      if a = b then (g, false)
      else if b ∈ ra.Links then (g, false)
      else (((g.updRoom a (fun r => { r with Links := r.Links ++ [b] })).updRoom b
              (fun r => { r with Links := r.Links ++ [a] })), true)
  | _, _ => (g, false)

/-! ## The parser (`internal/parser/parser.go`)

`Parse` folds over the input lines with a small state machine
(`phase`: ants → rooms → links, plus the `pendingCommand` of a `##start` /
`##end` marker).  The two regular expressions

* `roomLineRe = ^([^\s#L][^\s]*)\s+(-?\d+)\s+(-?\d+)$`
* `linkLineRe = ^([^\s#L][^\s]*)-([^\s#L][^\s]*)$`

are embedded as character-list matchers with the same (leftmost, greedy)
submatch semantics: for the room line the name is the maximal non-space run;
for the link line the separating dash is the rightmost dash whose suffix is a
valid second group.  RE2's `\s` is `[\t\n\f\r ]`. -/

def isSpaceGo (c : Char) : Bool :=
  c = ' ' ∨ c = '\t' ∨ c = '\n' ∨ c = '\x0c' ∨ c = '\r'

/-- `strings.HasPrefix` (kernel-reducible form). -/
def goHasPre (s p : String) : Bool :=
  p.toList.isPrefixOf s.toList

def digitsVal (cs : List Char) : Nat :=
  cs.foldl (fun a c => a * 10 + (c.toNat - '0'.toNat)) 0

/-- `strconv.Atoi`: optional sign, at least one digit, 64-bit range check. -/
def Atoi (s : String) : Option Int :=
  let cs := s.toList
  let sd : Int × List Char :=
    match cs with
    | '-' :: rest => (-1, rest)
    | '+' :: rest => (1, rest)
    | _ => (1, cs)
  if sd.2 = [] ∨ ¬ sd.2.all Char.isDigit then none
  else
    let v : Int := sd.1 * (digitsVal sd.2 : Nat)
    if v < -(9223372036854775808 : Int) ∨ v ≥ (9223372036854775808 : Int) then none else some v

/-- Parse `-?\d+` off the front of a character list (the submatches of
`roomLineRe`; `strconv.Atoi` on them cannot fail in range that matters, and
the coordinates are never used by the core, so the range clamp is dropped). -/
def parseIntTok (cs : List Char) : Option (Int × List Char) :=
  let sd : Int × List Char :=
    match cs with
    | '-' :: rest => (-1, rest)
    | _ => (1, cs)
  let ds := sd.2.takeWhile Char.isDigit
  if ds = [] then none
  else some (sd.1 * (digitsVal ds : Nat), sd.2.drop ds.length)

/-- Matcher of `roomLineRe`, returning the three submatches. -/
def matchRoomLine (line : String) : Option (String × Int × Int) :=
  match line.toList with
  | [] => none
  | c :: rest =>
    if isSpaceGo c ∨ c = '#' ∨ c = 'L' then none
    else
      let name := c :: rest.takeWhile (fun d => ¬ isSpaceGo d)
      let r1 := rest.dropWhile (fun d => ¬ isSpaceGo d)
      if r1 = [] then none
      else
        match parseIntTok (r1.dropWhile (fun d => isSpaceGo d)) with
        | none => none
        | some (x, r2) =>
          match r2 with
          | [] => none
          | d :: _ =>
            if ¬ isSpaceGo d then none
            else
              match parseIntTok (r2.dropWhile (fun e => isSpaceGo e)) with
              | none => none
              | some (y, r3) => if r3 = [] then some (⟨name⟩, x, y) else none

/-- Matcher of `linkLineRe`, returning the two submatches (the dash chosen by
the greedy first group is the rightmost one with a valid suffix). -/
def matchLinkLine (line : String) : Option (String × String) :=
  let cs := line.toList
  if cs.any isSpaceGo then none
  else
    match cs with
    | [] => none
    | c :: _ =>
      if c = '#' ∨ c = 'L' then none
      else
        match (List.range cs.length).reverse.find? (fun k =>
            decide (cs.getD k ' ' = '-') && decide (1 ≤ k) && decide (k + 1 < cs.length) &&
            ! (decide (cs.getD (k + 1) ' ' = '#') || decide (cs.getD (k + 1) ' ' = 'L'))) with
        | none => none
        | some k => some (⟨cs.take k⟩, ⟨cs.drop (k + 1)⟩)

inductive Phase
  | ants
  | rooms
  | links
deriving DecidableEq, Repr

structure PState where
  Ants : Int
  g : Graph
  lines : List String
  phase : Phase
  pending : String
deriving DecidableEq, Repr

structure Result where
  Ants : Int
  Graph : LemIn.Graph
  OriginalLines : List String
deriving DecidableEq, Repr

instance exceptStrDecEq {α : Type} [DecidableEq α] : DecidableEq (Except String α) := fun a b =>
  match a, b with
  | .error e, .error e' =>
    if h : e = e' then .isTrue (by rw [h]) else .isFalse (by intro hc; cases hc; exact h rfl)
  | .ok v, .ok v' =>
    if h : v = v' then .isTrue (by rw [h]) else .isFalse (by intro hc; cases hc; exact h rfl)
  | .error _, .ok _ => .isFalse (by intro hc; exact Except.noConfusion hc)
  | .ok _, .error _ => .isFalse (by intro hc; exact Except.noConfusion hc)

def errInvalid : String := "ERROR: invalid data format"

def initPState : PState := ⟨0, NewGraph, [], .ants, ""⟩

/-- One iteration of the scanner loop of `parser.Parse`. -/
def parseLine (s : PState) (line : String) : Except String PState :=
  if line = "" then .error (errInvalid ++ ", empty line")
  else if goHasPre line "#" then
    if goHasPre line "##" then
      if line = "##start" ∨ line = "##end" then
        .ok { s with pending := line, lines := s.lines ++ [line] }
      else .ok { s with lines := s.lines ++ [line] }
    else .ok s
  else if s.phase = .ants then
    match Atoi line with
    | none => .error errInvalid
    | some ants =>
      if ants ≤ 0 then .error errInvalid
      else .ok { s with Ants := ants, lines := s.lines ++ [line], phase := .rooms }
  else
    match matchRoomLine line, s.phase with
    | some (name, x, y), .rooms =>
      if (s.g.findRoom name).isSome then .error (errInvalid ++ ", duplicate room")
      else
        match s.g.AddRoom name x y with
        | (g1, r) =>
          if s.pending = "##start" then
            if g1.Start.isSome then .error (errInvalid ++ ", multiple start")
            else .ok { s with g := { g1 with Start := some r.Name }, pending := "",
                              lines := s.lines ++ [line] }
          else if s.pending = "##end" then
            if g1.End.isSome then .error (errInvalid ++ ", multiple end")
            else .ok { s with g := { g1 with End := some r.Name }, pending := "",
                              lines := s.lines ++ [line] }
          else .ok { s with g := g1, pending := "", lines := s.lines ++ [line] }
    | _, _ =>
      match matchLinkLine line with
      | some (a, b) =>
        if s.g.Start.isNone ∨ s.g.End.isNone then .error (errInvalid ++ ", missing start or end")
        else
          match s.g.AddLink a b with
          | (g1, ok) =>
            if ok then .ok { s with g := g1, phase := .links, lines := s.lines ++ [line] }
            else .error (errInvalid ++ ", invalid link")
      | none =>
        if s.phase = .links then .error (errInvalid ++ ", expected link")
        else .error (errInvalid ++ ", unrecognized line")

/-- `parser.Parse` over the list of scanned lines. -/
def Parse (input : List String) : Except String Result :=
  match input.foldlM parseLine initPState with
  | .error e => .error e
  | .ok s =>
    if s.Ants = 0 ∨ s.g.Start.isNone ∨ s.g.End.isNone then
      .error (errInvalid ++ ", missing essential data")
    else .ok ⟨s.Ants, s.g, s.lines⟩

/-! ## The load balancer (first half of `scheduler.Run`)

`Run` sorts the paths by length, gathers the lengths (in edges), and computes
the minimal makespan `T` with `Σ max(0, T − (L−1)) ≥ ants`, then per-path
counts `take = min(max(0, T − (L−1)), remain)` and a left-to-right leftover
pass. -/

/-- The inner sum of the `T`-search loop: `for _, L := range lens { base :=
L-1; if T > base { sum += T - base } }`. -/
def sumFree (lens : List Nat) (T : Int) : Int :=
  lens.foldl (fun a (L : Nat) => if T > (L : Int) - 1 then a + (T - ((L : Int) - 1)) else a) 0

/-- The unbounded `for { ... T++ }` search, fuelled. -/
def findT (lens : List Nat) (ants : Int) : Nat → Int → Int
  | 0, T => T
  | fuel + 1, T => if sumFree lens T ≥ ants then T else findT lens ants fuel (T + 1)

/-- `T := lens[0]-1; if T < 0 { T = 0 }` followed by the search loop
(`ants.toNat + 1` iterations always suffice, `findT_fuel_irrel` below). -/
def balancerT (lens : List Nat) (ants : Int) : Int :=
  findT lens ants (ants.toNat + 1) (max ((lens.headD 0 : Int) - 1) 0)

/-- First assignment pass: `take := max(0, T-(L-1))` clamped by `remain`;
returns the counts and the final `remain`. -/
def takeCounts (T : Int) : List Nat → Int → List Int × Int
  | [], remain => ([], remain)
  | L :: ls, remain =>
      let take0 : Int := if T > (L : Int) - 1 then T - ((L : Int) - 1) else 0
      let take : Int := if take0 > remain then remain else take0
      let rest := takeCounts T ls (remain - take)
      (take :: rest.1, rest.2)

/-- Leftover pass: `for i := 0; i < len(paths) && remain > 0; i++ {
counts[i]++; remain-- }`. -/
def distLeft : List Int → Int → List Int
  | [], _ => []
  | c :: cs, remain => if remain > 0 then (c + 1) :: distLeft cs (remain - 1) else c :: cs

/-- The per-path ant counts computed by the pre-allocation. -/
def balancerCounts (lens : List Nat) (ants : Int) : List Int :=
  distLeft (takeCounts (balancerT lens ants) lens ants).1
    (takeCounts (balancerT lens ants) lens ants).2

/-! ## The turn simulator (second half of `scheduler.Run`)

State: the occupancy map `roomName → antID` (0 = free, the Go zero value), the
ant-state map (only dispatched ants; never removed), the per-path wait queues
and the finished counter.  The Go iteration over the `antsState` map when
building `posToAnt` is embedded as a search over ant ids 1..N in increasing
order; the two coincide because distinct in-flight ants never share a
`(path, position)` key (a consequence of the room-exclusivity invariant proved
below), so the map has no colliding writes.  `sort.Slice` on path lengths is
embedded as a stable merge sort; Go's pdqsort is equally deterministic and the
scheduler depends only on the lengths being ascending. -/

instance : Inhabited Path := ⟨⟨[], 0⟩⟩

structure AntState where
  PathIdx : Nat
  Pos : Nat
deriving DecidableEq, Repr

structure SimState where
  occupied : String → Nat
  antsState : Nat → Option AntState
  waitQueues : List (List Nat)
  finished : Nat

def updOcc (f : String → Nat) (k : String) (v : Nat) : String → Nat :=
  fun r => if r = k then v else f r

def updAnts (f : Nat → Option AntState) (k : Nat) (v : Option AntState) :
    Nat → Option AntState :=
  fun i => if i = k then v else f i

/-- `posToAnt` lookup: the (unique) ant id in 1..N whose state is
`(pi, pos)` with `pos > 0`. -/
def antAt (antsN : Nat) (st : Nat → Option AntState) (pi pos : Nat) : Option Nat :=
  if pos = 0 then none
  else (List.range' 1 antsN).find? (fun id => st id = some ⟨pi, pos⟩)

/-- `id := 1; for i := range paths { for k := 0; k < counts[i]; k++ { ... } }`. -/
def buildAssigned : List Int → Nat → List (List Nat)
  | [], _ => []
  | c :: cs, id => (List.range c.toNat).map (fun k => id + k) :: buildAssigned cs (id + c.toNat)

/-- Body of the phase-1 position loop: move the ant found at `(pi, pos)` in the
snapshot if its next room is the end or free; free the current room and claim
the next (skipping start/end), bump its position, emit `L<id>-<next>`. -/
def moveStep (startName endName : String) (antsN : Nat) (pi : Nat) (p : Path)
    (snap : Nat → Option AntState) (acc : SimState × List String) (pos : Nat) :
    SimState × List String :=
  match antAt antsN snap pi pos with
  | none => acc
  | some antID =>
    match acc.1.antsState antID with
    | none => acc
    | some as =>
      let cur := p.Rooms.getD as.Pos ""
      let next := p.Rooms.getD (as.Pos + 1) ""
      if next = endName ∨ acc.1.occupied next = 0 then
        let o1 := if cur ≠ startName ∧ cur ≠ endName then updOcc acc.1.occupied cur 0
          else acc.1.occupied
        let o2 := if next ≠ startName ∧ next ≠ endName then updOcc o1 next antID else o1
        ({ acc.1 with
            occupied := o2,
            antsState := updAnts acc.1.antsState antID (some ⟨as.PathIdx, as.Pos + 1⟩),
            finished := if next = endName then acc.1.finished + 1 else acc.1.finished },
          acc.2 ++ ["L" ++ toString antID ++ "-" ++ next])
      else acc

/-- Phase 1 for one path: snapshot `posToAnt`, then walk positions
`p.Length−1 … 0`. -/
def phase1Path (startName endName : String) (antsN : Nat)
    (acc : SimState × List String) (pip : Nat × Path) : SimState × List String :=
  (List.range pip.2.Length).reverse.foldl
    (moveStep startName endName antsN pip.1 pip.2 acc.1.antsState) acc

/-- Phase 2 for one path: dispatch the head of the wait queue if the first room
is free (or the path is the direct start–end path). -/
def dispStep (startName endName : String) (acc : SimState × List String)
    (pip : Nat × Path) : SimState × List String :=
  match acc.1.waitQueues.getD pip.1 [] with
  | [] => acc
  | antID :: restQ =>
    if pip.2.Rooms.length = 2 then
      ({ acc.1 with
          waitQueues := (acc.1.waitQueues.set pip.1 restQ),
          finished := acc.1.finished + 1 },
        acc.2 ++ ["L" ++ toString antID ++ "-" ++ endName])
    else
      let first := pip.2.Rooms.getD 1 ""
      if first = endName ∨ acc.1.occupied first = 0 then
        ({ acc.1 with
            waitQueues := (acc.1.waitQueues.set pip.1 restQ),
            antsState := updAnts acc.1.antsState antID (some ⟨pip.1, 1⟩),
            occupied := if first ≠ startName ∧ first ≠ endName then
              updOcc acc.1.occupied first antID else acc.1.occupied,
            finished := if first = endName then acc.1.finished + 1 else acc.1.finished },
          acc.2 ++ ["L" ++ toString antID ++ "-" ++ first])
      else acc

/-- One simulation turn: phase 1 over all paths in order, then phase 2. -/
def runTurn (startName endName : String) (antsN : Nat) (paths : List Path)
    (s : SimState) : SimState × List String :=
  paths.enum.foldl (dispStep startName endName)
    (paths.enum.foldl (phase1Path startName endName antsN) (s, []))

/-- The turn loop: one output line per turn, stopping at `finished ≥ ants` or
on a turn with no moves. -/
def runLoop (startName endName : String) (antsN : Nat) (paths : List Path) :
    Nat → SimState → List String
  | 0, _ => []
  | fuel + 1, s =>
    if s.finished < antsN then
      match runTurn startName endName antsN paths s with
      | (s', moves) =>
        if moves = [] then []
        else (" ".intercalate moves) :: runLoop startName endName antsN paths fuel s'
    else []

/-- `sort.Slice(paths, ...)` by ascending length. -/
def schedSorted (paths : List Path) : List Path :=
  List.insertionSort (fun a b => a.Length ≤ b.Length) paths

/-- The initial simulator state built by `scheduler.Run` before the turn
loop. -/
def schedInit (ants : Int) (paths : List Path) : SimState :=
  ⟨fun _ => 0, fun _ => none,
    buildAssigned (balancerCounts ((schedSorted paths).map Path.Length) ants) 1, 0⟩

/-- Fuel that dominates the number of turns any run can take (each printed turn
contains at least one move and every ant moves at most `Length` times). -/
def runFuel (ants : Int) (paths : List Path) : Nat :=
  ants.toNat * ((paths.map Path.Length).foldr max 0 + 2) + 2

/-- `scheduler.Run`: the list of printed move lines. -/
def Run (ants : Int) (paths : List Path) (startName endName : String) : List String :=
  if ants ≤ 0 ∨ paths = [] then []
  else
    runLoop startName endName ants.toNat (schedSorted paths) (runFuel ants paths)
      (schedInit ants paths)

/-! ## The extractor (`internal/path/multipath.go`)

`MultiPath` collects the room names of the Go map (random iteration order,
embedded as the association-list order) and sorts them, builds the node-split
residual network (`r_in = 2·id`, `r_out = 2·id + 1`; capacity 1 through
intermediate rooms, `INF` through start/end, capacity 1 per directed half of
every link), runs Edmonds–Karp from `start_out` to `end_in`, and decomposes
the final flow into room-name paths.  The unbounded Go loops (BFS queue, the
two `for v := sink; v != source` walks, the Edmonds–Karp loop and the two
reconstruction loops) carry fuel; the chosen fuels are shown sufficient where
the claims need it. -/

/-- Go compares strings byte-wise; on UTF-8 data this coincides with
code-point order, which we compute directly on the character lists. -/
def strLtL : List Char → List Char → Bool
  | [], [] => false
  | [], _ :: _ => true
  | _ :: _, [] => false
  | a :: as, b :: bs =>
    if a.toNat < b.toNat then true
    else if b.toNat < a.toNat then false
    else strLtL as bs

def strLt (s t : String) : Bool := strLtL s.toList t.toList

def strLe (s t : String) : Bool := !strLt t s

structure HEdge where
  toV : Nat
  rev : Nat
  cap : Int
  flow : Int
deriving DecidableEq, Repr

abbrev FGraph := List (List HEdge)

def getE (G : FGraph) (u i : Nat) : HEdge :=
  (G.getD u []).getD i ⟨0, 0, 0, 0⟩

def setE (G : FGraph) (u i : Nat) (e : HEdge) : FGraph :=
  G.set u ((G.getD u []).set i e)

/-- `addEdge`: append the forward edge to `graph[u]` and its reverse (capacity
0) to `graph[v]`, with mutual `rev` indices exactly as in the source. -/
def addEdge (G : FGraph) (u v : Nat) (c : Int) : FGraph :=
  let G1 := G.set u ((G.getD u []) ++ [⟨v, (G.getD v []).length, c, 0⟩])
  G1.set v ((G1.getD v []) ++ [⟨u, (G1.getD u []).length - 1, 0, 0⟩])

def INF : Int := 1000000

def inIdx (names : List String) (nm : String) : Nat := 2 * names.indexOf nm

def outIdx (names : List String) (nm : String) : Nat := 2 * names.indexOf nm + 1

/-- The room-capacity edges `v_in → v_out` (capacity `INF` at start/end). -/
def addCapEdges (names : List String) (sN eN : String) (G : FGraph) : FGraph :=
  names.foldl (fun G nm =>
    addEdge G (inIdx names nm) (outIdx names nm) (if nm = sN ∨ nm = eN then INF else 1)) G

/-- The link edges `u_out → v_in`, neighbours sorted by name, capacity 1. -/
def addLinkEdges (names : List String) (lookup : String → Option Room) (G : FGraph) : FGraph :=
  names.foldl (fun G nm =>
    (List.insertionSort (fun a b => strLe a b = true)
      (match lookup nm with
       | some r => r.Links
       | none => [])).foldl
      (fun G vn => addEdge G (outIdx names nm) (inIdx names vn) 1) G) G

def buildFG (names : List String) (lookup : String → Option Room) (sN eN : String) : FGraph :=
  addLinkEdges names lookup (addCapEdges names sN eN (List.replicate (2 * names.length) []))

/-- `parentInfo`: parent node and incoming edge index, `-1` when unset. -/
structure ParI where
  u : Int
  ei : Int
deriving DecidableEq, Repr

/-- Scan the residual edges of `u` in index order, discovering new nodes. -/
def bfsScan (G : FGraph) (u : Nat) (pq : List ParI × List Nat) : List ParI × List Nat :=
  (List.range (G.getD u []).length).foldl
    (fun pq ei =>
      let e := getE G u ei
      if (pq.1.getD e.toV ⟨-1, -1⟩).u = -1 ∧ e.cap - e.flow > 0 then
        (pq.1.set e.toV ⟨(u : Int), (ei : Int)⟩, pq.2 ++ [e.toV])
      else pq) pq

/-- The BFS queue loop (early exit when the sink is dequeued). -/
def bfsLoop (G : FGraph) (sink : Nat) : Nat → List Nat → List ParI → List ParI
  | 0, _, par => par
  | _ + 1, [], par => par
  | fuel + 1, u :: qs, par =>
    if u = sink then par
    else
      match bfsScan G u (par, qs) with
      | (par', q') => bfsLoop G sink fuel q' par'

def bfsRun (G : FGraph) (source sink : Nat) : List ParI :=
  bfsLoop G sink (G.length + 1) [source]
    ((List.replicate G.length (⟨-1, -1⟩ : ParI)).set source ⟨(source : Int), -1⟩)

/-- `for v := sink; v != source { bneck = min bneck resid }`. -/
def walkMin (G : FGraph) (source : Nat) (par : List ParI) : Nat → Nat → Int → Int
  | 0, _, acc => acc
  | fuel + 1, v, acc =>
    if v = source then acc
    else
      let pr := par.getD v ⟨-1, -1⟩
      let e := getE G pr.u.toNat pr.ei.toNat
      walkMin G source par fuel pr.u.toNat (if e.cap - e.flow < acc then e.cap - e.flow else acc)

/-- `for v := sink; v != source { fe.flow += b; re.flow -= b }`. -/
def augWalk (source : Nat) (par : List ParI) : Nat → FGraph → Nat → Int → FGraph
  | 0, G, _, _ => G
  | fuel + 1, G, v, b =>
    if v = source then G
    else
      let pr := par.getD v ⟨-1, -1⟩
      let fe := getE G pr.u.toNat pr.ei.toNat
      let G1 := setE G pr.u.toNat pr.ei.toNat { fe with flow := fe.flow + b }
      let re := getE G1 fe.toV fe.rev
      let G2 := setE G1 fe.toV fe.rev { re with flow := re.flow - b }
      augWalk source par fuel G2 pr.u.toNat b

/-- One call of the Go `bfs` closure: search, bottleneck, augment. -/
def bfsStep (G : FGraph) (source sink : Nat) : FGraph × Int :=
  let par := bfsRun G source sink
  if (par.getD sink ⟨-1, -1⟩).u = -1 then (G, 0)
  else
    let b := walkMin G source par (G.length + 1) sink INF
    if b ≤ 0 then (G, 0)
    else (augWalk source par (G.length + 1) G sink b, b)

/-- The Edmonds–Karp outer loop. -/
def ekLoop (source sink : Nat) (maxPaths : Int) : Nat → FGraph → Int → FGraph × Int
  | 0, G, tf => (G, tf)
  | fuel + 1, G, tf =>
    match bfsStep G source sink with
    | (G', pushed) =>
      if pushed = 0 then (G', tf)
      else if maxPaths > 0 ∧ tf + pushed ≥ maxPaths then (G', tf + pushed)
      else ekLoop source sink maxPaths fuel G' (tf + pushed)

/-- Total capacity leaving the source bounds the flow, hence the iterations. -/
def ekFuel (G : FGraph) (source : Nat) : Nat :=
  (((G.getD source []).map (fun e : HEdge => e.cap)).sum).toNat + 1

/-- Total positive flow; bounds every reconstruction loop. -/
def totalPos (G : FGraph) : Int :=
  (G.map (fun es => (es.map (fun e : HEdge => max e.flow 0)).sum)).sum

/-- `sortedOuts[u]`: edge indices ordered by destination room name, ties by
index. -/
def sortedOuts (names : List String) (G : FGraph) (u : Nat) : List Nat :=
  (List.insertionSort (fun a b : Nat × String => strLt a.2 b.2 = true ∨ (a.2 = b.2 ∧ a.1 ≤ b.1))
    ((List.range (G.getD u []).length).map
      (fun ei => (ei, names.getD ((getE G u ei).toV / 2) "")))).map Prod.fst

/-- `consumeFlowAlong`: first outgoing edge (in `sortedOuts` order) with
positive flow; push one unit across it and its reverse. -/
def consumeFA (souts : Nat → List Nat) (G : FGraph) (u : Nat) : Option (FGraph × Nat) :=
  match (souts u).find? (fun ei => (getE G u ei).flow > 0) with
  | none => none
  | some ei =>
    let e := getE G u ei
    let G1 := setE G u ei { e with flow := e.flow - 1 }
    let re := getE G1 e.toV e.rev
    some (setE G1 e.toV e.rev { re with flow := re.flow + 1 }, e.toV)

/-- The inner tracing loop: record the room of each `v_in` reached (except the
end room), consuming the `v_in → v_out` capacity edge and then one original
edge, until the sink; bail out gracefully if the flow is inconsistent. -/
def traceWalk (souts : Nat → List Nat) (names : List String) (eN : String) (Ein : Nat) :
    Nat → FGraph → Nat → List String → FGraph × List String
  | 0, G, _, acc => (G, acc)
  | fuel + 1, G, cur, acc =>
    if cur = Ein then (G, acc)
    else
      let vName := names.getD (cur / 2) ""
      let acc' := if vName ≠ eN then acc ++ [vName] else acc
      match consumeFA souts G cur with
      | none => (G, acc')
      | some (G1, nxt) =>
        match consumeFA souts G1 nxt with
        | none => (G1, acc')
        | some (G2, nxt2) => traceWalk souts names eN Ein fuel G2 nxt2 acc'

/-- The outer tracing loop: one path per unit of flow leaving the source. -/
def tracePaths (souts : Nat → List Nat) (names : List String) (sN eN : String)
    (Sout Ein : Nat) (maxPaths : Int) (inner : Nat) :
    Nat → FGraph → List Path → List Path
  | 0, _, acc => acc
  | fuel + 1, G, acc =>
    match consumeFA souts G Sout with
    | none => acc
    | some (G1, nxt) =>
      match traceWalk souts names eN Ein inner G1 nxt [] with
      | (G2, rec) =>
        let namePath := sN :: (rec ++ [eN])
        let acc' := acc ++ [⟨namePath, namePath.length - 1⟩]
        if maxPaths > 0 ∧ (acc'.length : Int) ≥ maxPaths then acc'
        else tracePaths souts names sN eN Sout Ein maxPaths inner fuel G2 acc'

/-- The core of `MultiPath` once the sorted name list is fixed: build the
network, run max-flow, reconstruct. -/
def mpCore (names : List String) (lookup : String → Option Room) (sN eN : String)
    (maxPaths : Int) : List Path :=
  let Sout := outIdx names sN
  let Ein := inIdx names eN
  let G0 := buildFG names lookup sN eN
  match ekLoop Sout Ein maxPaths (ekFuel G0 Sout) G0 0 with
  | (G1, totalFlow) =>
    if totalFlow = 0 then []
    else
      tracePaths (fun u => sortedOuts names G1 u) names sN eN Sout Ein maxPaths
        ((totalPos G1).toNat + 1) ((totalPos G1).toNat + 1) G1 []

/-- `path.MultiPath`. -/
def MultiPath (g : Graph) (maxPaths : Int) : List Path :=
  match g.Start, g.End with
  | some sN, some eN =>
    if g.Rooms.length = 0 then []
    else
      mpCore (List.insertionSort (fun a b => strLe a b = true) (g.Rooms.map Prod.fst))
        (fun nm => g.Rooms.lookup nm) sN eN maxPaths
  | _, _ => []

/-- `main.go` after a successful parse: echoed lines, a blank line, then
either the no-path error or the scheduler's move lines; exit code 0 in every
case. -/
def mainOutput (res : Result) : List String × Nat :=
  match MultiPath res.Graph 0 with
  | [] => (res.OriginalLines ++ ["", "ERROR: invalid data format, no path found"], 0)
  | paths =>
    (res.OriginalLines ++ [""] ++
      Run res.Ants paths (res.Graph.Start.getD "") (res.Graph.End.getD ""), 0)

/-! ### Machinery for the Edmonds–Karp invariants (claims C7 and C1) -/

def ekStep (source sink : Nat) (G : FGraph) : FGraph := (bfsStep G source sink).1

/-- Two residual networks with the same topology (lengths, `toV`, `rev`,
`cap`); only the flows may differ. -/
def shapeEq (G G' : FGraph) : Prop :=
  G.length = G'.length ∧
  ∀ u i, (G.getD u []).length = (G'.getD u []).length ∧
    (getE G u i).toV = (getE G' u i).toV ∧
    (getE G u i).rev = (getE G' u i).rev ∧
    (getE G u i).cap = (getE G' u i).cap

/-- Walking the BFS parent pointers from `v` reaches `source` within `n`
hops, each hop crossing a residual-positive edge recorded in `par`. -/
def chainOK (G : FGraph) (par : List ParI) (source : Nat) : Nat → Nat → Prop
  | 0, v => v = source
  | n + 1, v => v = source ∨
      ((0 : Int) ≤ (par.getD v ⟨-1, -1⟩).u ∧ (0 : Int) ≤ (par.getD v ⟨-1, -1⟩).ei ∧
       (par.getD v ⟨-1, -1⟩).u.toNat < G.length ∧
       (par.getD v ⟨-1, -1⟩).ei.toNat <
         (G.getD (par.getD v ⟨-1, -1⟩).u.toNat []).length ∧
       (getE G (par.getD v ⟨-1, -1⟩).u.toNat (par.getD v ⟨-1, -1⟩).ei.toNat).toV = v ∧
       0 < (getE G (par.getD v ⟨-1, -1⟩).u.toNat (par.getD v ⟨-1, -1⟩).ei.toNat).cap -
           (getE G (par.getD v ⟨-1, -1⟩).u.toNat (par.getD v ⟨-1, -1⟩).ei.toNat).flow ∧
       chainOK G par source n (par.getD v ⟨-1, -1⟩).u.toNat)

/-- Number of discovered nodes: entries of `par` whose parent is set. -/
def numSet (par : List ParI) : Nat := par.countP (fun pr => pr.u ≠ -1)

/-- The BFS loop invariant: queued nodes are discovered and in range, and
every discovered node has a valid parent chain of bounded length. -/
def BfsInv (G : FGraph) (source : Nat) (par : List ParI) (q : List Nat) : Prop :=
  par.length = G.length ∧
  (∀ v ∈ q, v < G.length ∧ (par.getD v ⟨-1, -1⟩).u ≠ -1) ∧
  (∀ v, v < G.length → (par.getD v ⟨-1, -1⟩).u ≠ -1 →
    ∃ n, n ≤ numSet par ∧ chainOK G par source n v)

/-- State after `n` turns of the simulation (the turn boundaries of C4). -/
def afterTurns (startName endName : String) (antsN : Nat) (paths : List Path)
    (n : Nat) (s0 : SimState) : SimState :=
  (fun s => (runTurn startName endName antsN paths s).1)^[n] s0

/-- Length of the path an ant state refers to. -/
def plenAt (paths : List Path) (pi : Nat) : Nat :=
  (paths.getD pi default).Length

/-- The room an ant state currently occupies. -/
def roomAt (paths : List Path) (st : AntState) : String :=
  (paths.getD st.PathIdx default).Rooms.getD st.Pos ""

/-- Shape of the paths `MultiPath` hands to the scheduler: `Length + 1` rooms,
first room the start, last room the end, and no interior occurrence of the
start or end room. -/
def wfPath (startName endName : String) (p : Path) : Prop :=
  p.Rooms.length = p.Length + 1 ∧ 1 ≤ p.Length ∧
  p.Rooms.getD 0 "" = startName ∧ p.Rooms.getD p.Length "" = endName ∧
  ∀ i, i < p.Length → 1 ≤ i → p.Rooms.getD i "" ≠ startName ∧ p.Rooms.getD i "" ≠ endName

instance wfPathDec (startName endName : String) (p : Path) :
    Decidable (wfPath startName endName p) := by
  unfold wfPath
  infer_instance

/-- The simulation invariant: occupancy never records start/end; every
dispatched ant has a legal position; every in-flight (not yet arrived) ant
owns exactly the occupancy entry of its current room; every nonzero occupancy
entry points back to the in-flight ant sitting in that room; queued ants are
fresh, positive, and queued exactly once. -/
structure SimInv (startName endName : String) (paths : List Path) (s : SimState) : Prop where
  occStart : s.occupied startName = 0
  occEnd : s.occupied endName = 0
  stBound : ∀ id st, s.antsState id = some st →
    st.PathIdx < paths.length ∧ 1 ≤ st.Pos ∧ st.Pos ≤ plenAt paths st.PathIdx ∧ 1 ≤ id
  stOcc : ∀ id st, s.antsState id = some st → st.Pos < plenAt paths st.PathIdx →
    s.occupied (roomAt paths st) = id
  occSt : ∀ r, s.occupied r ≠ 0 → ∃ st, s.antsState (s.occupied r) = some st ∧
    st.Pos < plenAt paths st.PathIdx ∧ roomAt paths st = r
  qFresh : ∀ qi id, id ∈ s.waitQueues.getD qi [] → s.antsState id = none ∧ 1 ≤ id
  qNodup : ∀ qi, (s.waitQueues.getD qi []).Nodup
  qDisj : ∀ qi qj, qi ≠ qj → ∀ id, id ∈ s.waitQueues.getD qi [] →
    id ∉ s.waitQueues.getD qj []

end LemIn

/-! Theorems for the model. -/

namespace LemIn

/-- C10: `Graph.AddRoom` on a name already present returns the stored room and
leaves the graph completely unchanged (no coordinate overwrite, no new room). -/
theorem addRoom_existing_frame (g : Graph) (name : String) (x y : Int) (r : Room)
    (h : g.findRoom name = some r) : g.AddRoom name x y = (g, r) := by
  unfold Graph.AddRoom
  rw [h]

/-- Witness for `addRoom_existing_frame` at a concrete graph: re-adding room
`"a"` with different coordinates changes nothing and returns the old room. -/
theorem addRoom_existing_frame_witness :
    (let g : Graph := ⟨[("a", ⟨"a", 1, 2, ["b"]⟩)], some "a", none⟩
     g.findRoom "a" = some ⟨"a", 1, 2, ["b"]⟩ ∧
       g.AddRoom "a" 7 9 = (g, ⟨"a", 1, 2, ["b"]⟩)) := by
  refine ⟨by decide, addRoom_existing_frame _ _ 7 9 _ (by decide)⟩

/-! ### Parser lemmas and the comment-echo / start-marker claims -/

lemma hashTwo_imp_one (cs : List Char) (h : List.isPrefixOf ['#', '#'] cs = true) :
    List.isPrefixOf ['#'] cs = true := by
  cases cs with
  | nil => simp [List.isPrefixOf] at h
  | cons c cs' =>
    simp [List.isPrefixOf] at h ⊢
    exact h.1

lemma goHasPre_hash_of_hh (l : String) (h : goHasPre l "##" = true) :
    goHasPre l "#" = true := by
  unfold goHasPre at h ⊢
  exact hashTwo_imp_one l.toList h

lemma matchRoomLine_not_hash (line : String) (t : String × Int × Int)
    (h : matchRoomLine line = some t) : line ≠ "" ∧ goHasPre line "#" = false := by
  unfold matchRoomLine at h
  split at h
  · exact absurd h (by simp)
  · rename_i c cs hd
    split at h
    · exact absurd h (by simp)
    · rename_i hc
      push_neg at hc
      constructor
      · intro e
        rw [e] at hd
        exact absurd hd (by simp)
      · unfold goHasPre
        rw [hd]
        show List.isPrefixOf ['#'] (c :: cs) = false
        simp [List.isPrefixOf]
        intro e
        exact absurd e.symm hc.2.1

/-- Case analysis of one parser step on the echoed line list: a successful
step either leaves the echo unchanged (exactly the plain-`#` comment case) or
appends the processed line, and an appended line beginning with `#` must begin
with `##`. -/
lemma parseLine_lines_cases (s : PState) (l : String) (s' : PState)
    (h : parseLine s l = .ok s') :
    (s'.lines = s.lines ∧ goHasPre l "#" = true ∧ goHasPre l "##" = false) ∨
    (s'.lines = s.lines ++ [l] ∧ (goHasPre l "#" = true → goHasPre l "##" = true)) := by
  unfold parseLine at h
  split at h
  · exact absurd h (by simp)
  · split at h
    · rename_i hhash
      split at h
      · rename_i hhh
        split at h <;> (cases h; right; exact ⟨rfl, fun _ => hhh⟩)
      · rename_i hhh
        cases h
        left
        exact ⟨rfl, by simpa using hhash, by simpa using hhh⟩
    · rename_i hhash
      have hx : goHasPre l "#" = false := by simpa using hhash
      repeat' split at h
      all_goals
        first
          | exact Except.noConfusion h
          | (cases h; right; exact ⟨rfl, fun hc => absurd hc (by simp [hx])⟩)

/-- A `##`-prefixed line that a parser step accepts is always appended to the
echo list. -/
lemma parseLine_hh_appends (s : PState) (l : String) (s' : PState)
    (hpre : goHasPre l "##" = true) (h : parseLine s l = .ok s') :
    s'.lines = s.lines ++ [l] := by
  rcases parseLine_lines_cases s l s' h with ⟨_, _, hno⟩ | ⟨he, _⟩
  · rw [hno] at hpre
    exact Bool.noConfusion hpre
  · exact he

lemma foldParse_lines (input : List String) :
    ∀ s s', input.foldlM parseLine s = .ok s' →
      ((∀ x ∈ s.lines, goHasPre x "#" = true → goHasPre x "##" = true) →
        ∀ x ∈ s'.lines, goHasPre x "#" = true → goHasPre x "##" = true) ∧
      (∀ x ∈ s.lines, x ∈ s'.lines) ∧
      (∀ l ∈ input, goHasPre l "##" = true → l ∈ s'.lines) := by
  induction input with
  | nil =>
    intro s s' h
    simp only [List.foldlM] at h
    cases h
    exact ⟨fun hp => hp, fun x hx => hx, by simp⟩
  | cons l ls ih =>
    intro s s' h
    rw [List.foldlM_cons] at h
    cases h1 : parseLine s l with
    | error e =>
      rw [h1] at h
      exact Except.noConfusion h
    | ok s1 =>
      rw [h1] at h
      have h2 : ls.foldlM parseLine s1 = .ok s' := h
      obtain ⟨ihp, ihmono, ihm⟩ := ih s1 s' h2
      have hstep : ∀ x ∈ s.lines, x ∈ s1.lines := by
        intro x hx
        rcases parseLine_lines_cases s l s1 h1 with ⟨he, _, _⟩ | ⟨he, _⟩ <;>
          simp [he, hx]
      refine ⟨?_, fun x hx => ihmono x (hstep x hx), ?_⟩
      · intro hp
        apply ihp
        intro x hx hxh
        rcases parseLine_lines_cases s l s1 h1 with ⟨he, _, _⟩ | ⟨he, hi⟩
        · exact hp x (he ▸ hx) hxh
        · rw [he] at hx
          rcases List.mem_append.mp hx with hx' | hx'
          · exact hp x hx' hxh
          · rw [List.mem_singleton.mp hx'] at hxh ⊢
            exact hi hxh
      · intro m hm hmh
        rcases List.mem_cons.mp hm with rfl | hm'
        · have hm1 : m ∈ s1.lines := by
            rw [parseLine_hh_appends s m s1 hmh h1]
            simp
          exact ihmono m hm1
        · exact ihm m hm' hmh

/-- C8 (counterexample): a plain `#` comment line is accepted but dropped from
the echoed `OriginalLines`, so comment lines are not preserved in the echo. -/
theorem comment_line_not_echoed_cex :
    (Parse ["3", "#comment", "##start", "A 0 0", "##end", "B 1 1", "A-B"]).isOk = true ∧
    (Parse ["3", "#comment", "##start", "A 0 0", "##end", "B 1 1", "A-B"]).toOption.map
      (fun r => r.OriginalLines.contains "#comment") = some false := by
  decide

/-- C8 (amended): on every successfully parsed input the `##` command lines of
the input are preserved in the echoed `OriginalLines`, while plain `#` comment
lines never appear there (every echoed line beginning with `#` begins with
`##`). -/
theorem parse_echo_comment_lines (input : List String) (res : Result)
    (h : Parse input = .ok res) :
    (∀ x ∈ res.OriginalLines, goHasPre x "#" = true → goHasPre x "##" = true) ∧
    (∀ l ∈ input, goHasPre l "##" = true → l ∈ res.OriginalLines) := by
  unfold Parse at h
  cases hf : input.foldlM parseLine initPState with
  | error e => rw [hf] at h; exact Except.noConfusion h
  | ok s =>
    rw [hf] at h
    have h' : (if s.Ants = 0 ∨ s.g.Start.isNone ∨ s.g.End.isNone then
        (Except.error (errInvalid ++ ", missing essential data") : Except String Result)
      else .ok ⟨s.Ants, s.g, s.lines⟩) = .ok res := h
    by_cases hc : s.Ants = 0 ∨ s.g.Start.isNone ∨ s.g.End.isNone
    · rw [if_pos hc] at h'
      exact Except.noConfusion h'
    · rw [if_neg hc] at h'
      cases h'
      obtain ⟨hp, _, hm⟩ := foldParse_lines input initPState s hf
      exact ⟨hp (by simp [initPState]), hm⟩

/-- Witness for `parse_echo_comment_lines` on a concrete input. -/
theorem parse_echo_comment_lines_witness :
    (Parse ["3", "##start", "A 0 0", "##end", "B 1 1", "A-B"] =
      .ok ⟨3, ⟨[("A", ⟨"A", 0, 0, ["B"]⟩), ("B", ⟨"B", 1, 1, ["A"]⟩)], some "A", some "B"⟩,
        ["3", "##start", "A 0 0", "##end", "B 1 1", "A-B"]⟩) ∧
    ((∀ x ∈ ["3", "##start", "A 0 0", "##end", "B 1 1", "A-B"],
        goHasPre x "#" = true → goHasPre x "##" = true) ∧
      (∀ l ∈ ["3", "##start", "A 0 0", "##end", "B 1 1", "A-B"], goHasPre l "##" = true →
        l ∈ ["3", "##start", "A 0 0", "##end", "B 1 1", "A-B"])) :=
  ⟨by decide,
    parse_echo_comment_lines ["3", "##start", "A 0 0", "##end", "B 1 1", "A-B"]
      ⟨3, ⟨[("A", ⟨"A", 0, 0, ["B"]⟩), ("B", ⟨"B", 1, 1, ["A"]⟩)], some "A", some "B"⟩,
        ["3", "##start", "A 0 0", "##end", "B 1 1", "A-B"]⟩ (by decide)⟩

/-- C9 (counterexample): an input in which the `##start` marker occurs twice is
accepted by the parser — the second bare marker merely overwrites the pending
command before any room line consumes it, so no error is raised. -/
theorem double_start_marker_accepted_cex :
    (["2", "##start", "##start", "A 0 0", "##end", "B 1 1", "A-B"].count "##start" = 2) ∧
    (Parse ["2", "##start", "##start", "A 0 0", "##end", "B 1 1", "A-B"]).isOk = true := by
  decide

lemma AddRoom_marks (g : Graph) (n : String) (x y : Int) :
    ((g.AddRoom n x y).1).Start = g.Start ∧ ((g.AddRoom n x y).1).End = g.End := by
  unfold Graph.AddRoom
  cases g.findRoom n <;> simp

/-- C9 (amended): the error is raised exactly when a second room is
*designated*: a room line processed while the pending command is `##start` and
a start room is already set fails with "multiple start" (and likewise for
`##end`); bare repeated markers are accepted. -/
theorem second_designated_start_errors (s : PState) (line name : String) (x y : Int)
    (hm : matchRoomLine line = some (name, x, y)) (hph : s.phase = Phase.rooms)
    (hdup : (s.g.findRoom name).isSome = false) :
    (s.pending = "##start" → s.g.Start.isSome = true →
      parseLine s line = .error (errInvalid ++ ", multiple start")) ∧
    (s.pending = "##end" → s.g.End.isSome = true →
      parseLine s line = .error (errInvalid ++ ", multiple end")) := by
  have hne := matchRoomLine_not_hash line (name, x, y) hm
  cases hAR : s.g.AddRoom name x y with
  | mk g1 r =>
    have hmk := AddRoom_marks s.g name x y
    rw [hAR] at hmk
    have hmk1 : g1.Start = s.g.Start := hmk.1
    have hmk2 : g1.End = s.g.End := hmk.2
    constructor
    · intro hpend hset
      unfold parseLine
      simp only [hne.1, if_false, hne.2, hph, hm, hdup, hAR, hpend, hmk1, hset]
      simp [hset]
    · intro hpend hset
      unfold parseLine
      simp only [hne.1, if_false, hne.2, hph, hm, hdup, hAR, hpend, hmk2, hset]
      simp [hset]

/-! ### Balancer lemmas (claim C3) -/

lemma sumFree_foldl_acc (lens : List Nat) (T : Int) (acc : Int) :
    lens.foldl (fun a (L : Nat) => if T > (L : Int) - 1 then a + (T - ((L : Int) - 1)) else a) acc
      = acc + (lens.map (fun L : Nat => max (T - ((L : Int) - 1)) 0)).sum := by
  induction lens generalizing acc with
  | nil => simp
  | cons L ls ih =>
    simp only [List.foldl_cons, List.map_cons, List.sum_cons, ih]
    by_cases h : T > (L : Int) - 1
    · rw [if_pos h, max_eq_left (by omega)]
      ring
    · rw [if_neg h, max_eq_right (by omega)]
      ring

lemma sumFree_eq (lens : List Nat) (T : Int) :
    sumFree lens T = (lens.map (fun L : Nat => max (T - ((L : Int) - 1)) 0)).sum := by
  unfold sumFree
  rw [sumFree_foldl_acc]
  ring

lemma sumFree_cons (L : Nat) (ls : List Nat) (T : Int) :
    sumFree (L :: ls) T = max (T - ((L : Int) - 1)) 0 + sumFree ls T := by
  rw [sumFree_eq, sumFree_eq, List.map_cons, List.sum_cons]

lemma sumFree_nonneg (lens : List Nat) (T : Int) : 0 ≤ sumFree lens T := by
  rw [sumFree_eq]
  apply List.sum_nonneg
  intro x hx
  obtain ⟨L, _, rfl⟩ := List.mem_map.mp hx
  exact le_max_right _ _

lemma findT_ge (lens : List Nat) (ants : Int) (fuel : Nat) (T : Int) :
    T ≤ findT lens ants fuel T := by
  induction fuel generalizing T with
  | zero => simp [findT]
  | succ f ih =>
    unfold findT
    split
    · exact le_rfl
    · exact le_trans (by omega) (ih (T + 1))

lemma findT_min (lens : List Nat) (ants : Int) (fuel : Nat) (T S : Int)
    (h1 : T ≤ S) (h2 : S < findT lens ants fuel T) : sumFree lens S < ants := by
  induction fuel generalizing T with
  | zero => simp [findT] at h2; omega
  | succ f ih =>
    unfold findT at h2
    split at h2
    · omega
    · rename_i hlt
      rcases eq_or_lt_of_le h1 with rfl | hlt2
      · omega
      · exact ih (T + 1) (by omega) h2

lemma findT_reaches (lens : List Nat) (ants : Int) (fuel : Nat) (T : Int)
    (h : ants ≤ sumFree lens (T + (fuel : Int))) :
    ants ≤ sumFree lens (findT lens ants fuel T) := by
  induction fuel generalizing T with
  | zero => simpa [findT] using h
  | succ f ih =>
    unfold findT
    split
    · assumption
    · apply ih (T + 1)
      have he : T + 1 + (f : Int) = T + ((f : Nat) + 1 : Nat) := by push_cast; ring
      rw [he]
      exact h

lemma balancerT_sum_ge (lens : List Nat) (ants : Int) (hne : lens ≠ [])
    (hpos : 0 < ants) : ants ≤ sumFree lens (balancerT lens ants) := by
  cases lens with
  | nil => exact absurd rfl hne
  | cons L0 rest =>
    apply findT_reaches
    rw [sumFree_cons]
    have h1 : ants ≤ max (max ((((L0 :: rest).headD 0 : Nat) : Int) - 1) 0 +
        ((ants.toNat + 1 : Nat) : Int) - ((L0 : Int) - 1)) 0 := by
      simp only [List.headD_cons]
      have : ants ≤ max ((L0 : Int) - 1) 0 + ((ants.toNat + 1 : Nat) : Int) - ((L0 : Int) - 1) := by
        have hmx : (L0 : Int) - 1 ≤ max ((L0 : Int) - 1) 0 := le_max_left _ _
        omega
      omega
    have h2 := sumFree_nonneg rest (max ((((L0 :: rest).headD 0 : Nat) : Int) - 1) 0 +
      ((ants.toNat + 1 : Nat) : Int))
    omega

lemma takeCounts_sum (T : Int) (ls : List Nat) (remain : Int) :
    (takeCounts T ls remain).1.sum + (takeCounts T ls remain).2 = remain := by
  induction ls generalizing remain with
  | nil => simp [takeCounts]
  | cons L ls ih =>
    simp only [takeCounts, List.sum_cons]
    have := ih (remain - (if (if T > (L : Int) - 1 then T - ((L : Int) - 1) else 0) > remain
      then remain else if T > (L : Int) - 1 then T - ((L : Int) - 1) else 0))
    omega

lemma takeCounts_rem_zero (T : Int) (ls : List Nat) (remain : Int)
    (h0 : 0 ≤ remain) (h : remain ≤ sumFree ls T) : (takeCounts T ls remain).2 = 0 := by
  induction ls generalizing remain with
  | nil =>
    have hz : sumFree ([] : List Nat) T = 0 := by rw [sumFree_eq]; simp
    rw [hz] at h
    simp [takeCounts]
    omega
  | cons L ls ih =>
    rw [sumFree_cons] at h
    simp only [takeCounts]
    by_cases hc : (if T > (L : Int) - 1 then T - ((L : Int) - 1) else 0) > remain
    · rw [if_pos hc, sub_self]
      exact ih 0 le_rfl (sumFree_nonneg ls T)
    · rw [if_neg hc]
      apply ih
      · omega
      · have hmx : (if T > (L : Int) - 1 then T - ((L : Int) - 1) else 0)
            = max (T - ((L : Int) - 1)) 0 := by
          by_cases h' : T > (L : Int) - 1
          · rw [if_pos h', max_eq_left (by omega)]
          · rw [if_neg h', max_eq_right (by omega)]
        omega

lemma takeCounts_bounds (T : Int) (ls : List Nat) (remain : Int) (i : Nat)
    (h0 : 0 ≤ remain) (hi : i < ls.length) :
    0 ≤ (takeCounts T ls remain).1.getD i 0 ∧
      (0 < (takeCounts T ls remain).1.getD i 0 →
        ((ls.getD i 0 : Int) - 1) + (takeCounts T ls remain).1.getD i 0 ≤ T) := by
  induction ls generalizing remain i with
  | nil => simp at hi
  | cons L ls ih =>
    simp only [takeCounts]
    cases i with
    | zero =>
      simp only [List.getD_cons_zero]
      constructor
      · split_ifs <;> omega
      · intro hpos
        split_ifs at hpos ⊢ <;> omega
    | succ j =>
      simp only [List.getD_cons_succ]
      apply ih
      · by_cases h' : (if T > (L : Int) - 1 then T - ((L : Int) - 1) else 0) > remain
        · rw [if_pos h']; omega
        · rw [if_neg h']
          by_cases h'' : T > (L : Int) - 1
          · rw [if_pos h''] at h' ⊢; omega
          · rw [if_neg h''] at h' ⊢; omega
      · simpa using hi

lemma distLeft_zero (cs : List Int) : distLeft cs 0 = cs := by
  cases cs with
  | nil => rfl
  | cons c cs => simp [distLeft]

lemma pointwise_sum_le (ys : List Int) (ls : List Nat) (S : Int)
    (hlen : ys.length = ls.length)
    (hb : ∀ i, i < ys.length → ys.getD i 0 ≤ max (S - ((ls.getD i 0 : Int) - 1)) 0) :
    ys.sum ≤ sumFree ls S := by
  induction ys generalizing ls with
  | nil =>
    cases ls with
    | nil => simp [sumFree]
    | cons _ _ => simp at hlen
  | cons y ys ih =>
    cases ls with
    | nil => simp at hlen
    | cons L ls =>
      rw [List.sum_cons, sumFree_cons]
      have h0 := hb 0 (by simp)
      simp only [List.getD_cons_zero] at h0
      have hr : ys.sum ≤ sumFree ls S := by
        apply ih ls (by simpa using hlen)
        intro i hi
        have := hb (i + 1) (by simpa using Nat.succ_lt_succ hi)
        simpa using this
      omega

/-- C3 (counterexample): for path lengths `[1, 3]` and one ant the balancer
computes `T = 1` and counts `[1, 0]`, but the second path violates
`(L−1) + x ≤ T` since `(3−1) + 0 = 2 > 1`: the completion bound does not hold
for *every* path, only for the paths that receive ants. -/
theorem balancer_all_paths_bound_cex :
    balancerT [1, 3] 1 = 1 ∧ balancerCounts [1, 3] 1 = [1, 0] ∧
    ¬ ((((3 : Nat) : Int) - 1) + ((balancerCounts [1, 3] 1).getD 1 0) ≤ balancerT [1, 3] 1) := by
  decide

/-- C3 (amended): for sorted non-empty lengths and `N > 0` ants the balancer's
counts sum to `N`; every path that receives at least one ant satisfies
`(L−1) + x ≤ T`; and `T` is optimal: every alternative nonnegative assignment
summing to `N` puts some `x' > 0` on a path with `(L−1) + x' ≥ T`. -/
theorem balancer_amended (lens : List Nat) (ants : Int) (hne : lens ≠ [])
    (hsort : List.Sorted (· ≤ ·) lens) (hpos : 0 < ants) :
    (balancerCounts lens ants).sum = ants ∧
    (∀ i, i < lens.length → 0 < (balancerCounts lens ants).getD i 0 →
      ((lens.getD i 0 : Int) - 1) + (balancerCounts lens ants).getD i 0 ≤ balancerT lens ants) ∧
    (∀ ys : List Int, ys.length = lens.length → (∀ y ∈ ys, 0 ≤ y) → ys.sum = ants →
      ∃ i, i < lens.length ∧ 0 < ys.getD i 0 ∧
        balancerT lens ants ≤ ((lens.getD i 0 : Int) - 1) + ys.getD i 0) := by
  have hge := balancerT_sum_ge lens ants hne hpos
  have hrem := takeCounts_rem_zero (balancerT lens ants) lens ants (by omega) hge
  have hcnt : balancerCounts lens ants = (takeCounts (balancerT lens ants) lens ants).1 := by
    rw [balancerCounts, hrem, distLeft_zero]
  refine ⟨?_, ?_, ?_⟩
  · rw [hcnt]
    have := takeCounts_sum (balancerT lens ants) lens ants
    omega
  · intro i hi hposi
    rw [hcnt] at hposi ⊢
    exact (takeCounts_bounds (balancerT lens ants) lens ants i (by omega) hi).2 hposi
  · intro ys hlen hnn hsum
    by_contra hcon
    push_neg at hcon
    set T := balancerT lens ants with hT
    have hb : ∀ i, i < ys.length → ys.getD i 0 ≤ max ((T - 1) - ((lens.getD i 0 : Int) - 1)) 0 := by
      intro i hi
      have hi' : i < lens.length := hlen ▸ hi
      by_cases hyp : 0 < ys.getD i 0
      · have := hcon i hi' hyp
        omega
      · have hmem : ys.getD i 0 ∈ ys := by
          rw [List.getD_eq_getElem ys 0 hi]
          exact List.getElem_mem hi
        have := hnn _ hmem
        omega
    have hle : ants ≤ sumFree lens (T - 1) := hsum ▸ pointwise_sum_le ys lens (T - 1) hlen hb
    cases lens with
    | nil => exact absurd rfl hne
    | cons L0 rest =>
      set T0 : Int := max ((((L0 :: rest).headD 0 : Nat) : Int) - 1) 0 with hT0
      have hbal : T = findT (L0 :: rest) ants (ants.toNat + 1) T0 := by rw [hT]; rfl
      have hTge : T0 ≤ T := hbal ▸ findT_ge (L0 :: rest) ants (ants.toNat + 1) T0
      by_cases hc : T0 ≤ T - 1
      · have hlt : sumFree (L0 :: rest) (T - 1) < ants :=
          findT_min (L0 :: rest) ants (ants.toNat + 1) T0 (T - 1) hc (by omega)
        omega
      · have hTeq : T = T0 := by omega
        have hzero : sumFree (L0 :: rest) (T - 1) = 0 := by
          rw [sumFree_eq]
          apply List.sum_eq_zero
          intro x hx
          obtain ⟨L, hLmem, rfl⟩ := List.mem_map.mp hx
          have hL0 : L0 ≤ L := by
            rcases List.mem_cons.mp hLmem with rfl | hmem
            · exact le_rfl
            · exact (List.sorted_cons.mp hsort).1 L hmem
          have hLc : (L0 : Int) ≤ (L : Int) := by exact_mod_cast hL0
          have hT0' : T0 = max ((L0 : Int) - 1) 0 := by simpa using hT0
          have hle2 : T - 1 - ((L : Int) - 1) ≤ 0 := by
            rcases le_total ((L0 : Int) - 1) 0 with hm | hm
            · rw [hT0', max_eq_right hm] at hTeq; omega
            · rw [hT0', max_eq_left hm] at hTeq; omega
          exact max_eq_right hle2
        omega

theorem second_designated_start_errors_witness :
    (matchRoomLine "B 1 1" = some ("B", 1, 1)) ∧
    ((⟨2, ⟨[("A", ⟨"A", 0, 0, []⟩)], some "A", some "A"⟩, ["2"], .rooms, "##start"⟩ :
        PState).pending = "##start" →
      (⟨2, ⟨[("A", ⟨"A", 0, 0, []⟩)], some "A", some "A"⟩, ["2"], .rooms, "##start"⟩ :
        PState).g.Start.isSome = true →
      parseLine ⟨2, ⟨[("A", ⟨"A", 0, 0, []⟩)], some "A", some "A"⟩, ["2"], .rooms, "##start"⟩
        "B 1 1" = .error (errInvalid ++ ", multiple start")) ∧
    ((⟨2, ⟨[("A", ⟨"A", 0, 0, []⟩)], some "A", some "A"⟩, ["2"], .rooms, "##start"⟩ :
        PState).pending = "##end" →
      (⟨2, ⟨[("A", ⟨"A", 0, 0, []⟩)], some "A", some "A"⟩, ["2"], .rooms, "##start"⟩ :
        PState).g.End.isSome = true →
      parseLine ⟨2, ⟨[("A", ⟨"A", 0, 0, []⟩)], some "A", some "A"⟩, ["2"], .rooms, "##start"⟩
        "B 1 1" = .error (errInvalid ++ ", multiple end")) :=
  ⟨by decide,
    second_designated_start_errors
      ⟨2, ⟨[("A", ⟨"A", 0, 0, []⟩)], some "A", some "A"⟩, ["2"], .rooms, "##start"⟩
      "B 1 1" "B" 1 1 (by decide) (by decide) (by decide)⟩

/-! ### Simulator invariant lemmas (claim C4) -/

lemma find?_eq_some_state {antsN : Nat} {st : Nat → Option AntState} {pi pos antID : Nat}
    (h : antAt antsN st pi pos = some antID) : st antID = some ⟨pi, pos⟩ := by
  unfold antAt at h
  split at h
  · exact Option.noConfusion h
  · have := List.find?_some h
    simpa using this

lemma getD_mem_of_lt {α : Type} [Inhabited α] (l : List α) (i : Nat) (h : i < l.length) :
    l.getD i default ∈ l := by
  rw [List.getD_eq_getElem l default h]
  exact List.getElem_mem h

lemma moveStep_inv (startName endName : String) (paths : List Path) (antsN pi : Nat)
    (p : Path) (snap : Nat → Option AntState) (acc : SimState × List String) (pos : Nat)
    (hp : paths.getD pi default = p) (hpi : pi < paths.length)
    (hwfAll : ∀ q ∈ paths, wfPath startName endName q)
    (hpos : pos < p.Length)
    (hag : ∀ id, snap id = some ⟨pi, pos⟩ → acc.1.antsState id = some ⟨pi, pos⟩)
    (hinv : SimInv startName endName paths acc.1) :
    SimInv startName endName paths (moveStep startName endName antsN pi p snap acc pos).1 ∧
    (∀ id, snap id ≠ some ⟨pi, pos⟩ →
      (moveStep startName endName antsN pi p snap acc pos).1.antsState id =
        acc.1.antsState id) ∧
    (moveStep startName endName antsN pi p snap acc pos).1.waitQueues =
      acc.1.waitQueues := by
  cases hfind : antAt antsN snap pi pos with
  | none =>
    simp only [moveStep, hfind]
    exact ⟨hinv, by simp, by simp⟩
  | some antID =>
    have hsnapid : snap antID = some ⟨pi, pos⟩ := find?_eq_some_state hfind
    have hlive : acc.1.antsState antID = some ⟨pi, pos⟩ := hag antID hsnapid
    have hwf : wfPath startName endName p := hwfAll p (hp ▸ getD_mem_of_lt paths pi hpi)
    obtain ⟨hlen, hL1, hr0, hrL, hmid⟩ := hwf
    have hplen : plenAt paths pi = p.Length := by rw [plenAt, hp]
    have hb := hinv.stBound antID ⟨pi, pos⟩ hlive
    have hpos1 : 1 ≤ pos := hb.2.1
    have hidpos : 1 ≤ antID := hb.2.2.2
    have hroompi : roomAt paths ⟨pi, pos⟩ = p.Rooms.getD pos "" := by
      show (paths.getD pi default).Rooms.getD pos "" = p.Rooms.getD pos ""
      rw [hp]
    have hcurocc : acc.1.occupied (p.Rooms.getD pos "") = antID := by
      have := hinv.stOcc antID ⟨pi, pos⟩ hlive (by rw [hplen]; exact hpos)
      rwa [hroompi] at this
    have hcurne := hmid pos hpos hpos1
    simp only [moveStep, hfind, hlive]
    by_cases hfree : p.Rooms.getD (pos + 1) "" = endName ∨
        acc.1.occupied (p.Rooms.getD (pos + 1) "") = 0
    case neg =>
      rw [if_neg hfree]
      exact ⟨hinv, by simp, by simp⟩
    case pos =>
      rw [if_pos hfree, if_pos hcurne]
      refine ⟨?_, ?_, by trivial⟩
      swap
      · intro id hid
        have hne : id ≠ antID := fun he => hid (he ▸ hsnapid)
        simp [updAnts, hne]
      rcases Nat.lt_or_ge (pos + 1) p.Length with hlt | hge
      · have hnextne := hmid (pos + 1) hlt (by omega)
        have hocc0 : acc.1.occupied (p.Rooms.getD (pos + 1) "") = 0 :=
          hfree.resolve_left hnextne.2
        rw [if_pos hnextne]
        constructor
        · simp only [updOcc]
          rw [if_neg (Ne.symm hnextne.1), if_neg (Ne.symm hcurne.1)]
          exact hinv.occStart
        · simp only [updOcc]
          rw [if_neg (Ne.symm hnextne.2), if_neg (Ne.symm hcurne.2)]
          exact hinv.occEnd
        · intro id st hid
          by_cases he : id = antID
          · subst he
            simp only [updAnts, if_pos rfl] at hid
            cases hid
            refine ⟨hpi, ?_, ?_, hidpos⟩
            · show 1 ≤ pos + 1
              omega
            · show pos + 1 ≤ plenAt paths pi
              rw [hplen]
              omega
          · simp only [updAnts, if_neg he] at hid
            exact hinv.stBound id st hid
        · intro id st hid hfl
          by_cases he : id = antID
          · subst he
            simp only [updAnts, if_pos rfl] at hid
            cases hid
            have hra : roomAt paths ⟨pi, pos + 1⟩ = p.Rooms.getD (pos + 1) "" := by
              show (paths.getD pi default).Rooms.getD (pos + 1) "" = p.Rooms.getD (pos + 1) ""
              rw [hp]
            rw [hra]
            simp [updOcc]
          · simp only [updAnts, if_neg he] at hid
            have hold := hinv.stOcc id st hid hfl
            have hstb := hinv.stBound id st hid
            have hrne1 : roomAt paths st ≠ p.Rooms.getD pos "" := by
              intro hcontra
              rw [hcontra, hcurocc] at hold
              exact he hold.symm
            have hrne2 : roomAt paths st ≠ p.Rooms.getD (pos + 1) "" := by
              intro hcontra
              rw [hcontra, hocc0] at hold
              omega
            simp only [updOcc]
            rw [if_neg hrne2, if_neg hrne1]
            exact hold
        · intro r hr
          by_cases hrn : r = p.Rooms.getD (pos + 1) ""
          · subst hrn
            simp only [updOcc, if_pos rfl] at hr ⊢
            refine ⟨⟨pi, pos + 1⟩, ?_, ?_, ?_⟩
            · simp [updAnts]
            · show pos + 1 < plenAt paths pi
              rw [hplen]
              exact hlt
            · show (paths.getD pi default).Rooms.getD (pos + 1) "" = _
              rw [hp]
          · by_cases hrc : r = p.Rooms.getD pos ""
            · subst hrc
              simp only [updOcc, if_neg hrn, if_pos rfl] at hr
              exact absurd rfl hr
            · simp only [updOcc, if_neg hrn, if_neg hrc] at hr ⊢
              obtain ⟨st, hk, hfl, hroom⟩ := hinv.occSt r hr
              by_cases hkid : acc.1.occupied r = antID
              · rw [hkid, hlive] at hk
                cases hk
                rw [hroompi] at hroom
                exact absurd hroom.symm hrc
              · refine ⟨st, ?_, hfl, hroom⟩
                simp only [updAnts, if_neg hkid]
                exact hk
        · intro qi id hq
          have hold := hinv.qFresh qi id hq
          have hne : id ≠ antID := by
            intro he
            rw [he, hlive] at hold
            exact Option.noConfusion hold.1
          simp only [updAnts, if_neg hne]
          exact hold
        · exact hinv.qNodup
        · exact hinv.qDisj
      · have hposL : pos + 1 = p.Length := by omega
        have hnextEnd : p.Rooms.getD (pos + 1) "" = endName := by rw [hposL]; exact hrL
        have hne2 : ¬ (p.Rooms.getD (pos + 1) "" ≠ startName ∧
            p.Rooms.getD (pos + 1) "" ≠ endName) := by
          intro hc
          exact hc.2 hnextEnd
        rw [if_neg hne2]
        constructor
        · simp only [updOcc]
          rw [if_neg (Ne.symm hcurne.1)]
          exact hinv.occStart
        · simp only [updOcc]
          rw [if_neg (Ne.symm hcurne.2)]
          exact hinv.occEnd
        · intro id st hid
          by_cases he : id = antID
          · subst he
            simp only [updAnts, if_pos rfl] at hid
            cases hid
            refine ⟨hpi, ?_, ?_, hidpos⟩
            · show 1 ≤ pos + 1
              omega
            · show pos + 1 ≤ plenAt paths pi
              rw [hplen]
              omega
          · simp only [updAnts, if_neg he] at hid
            exact hinv.stBound id st hid
        · intro id st hid hfl
          by_cases he : id = antID
          · subst he
            simp only [updAnts, if_pos rfl] at hid
            cases hid
            have hfl2 : pos + 1 < plenAt paths pi := hfl
            rw [hplen] at hfl2
            omega
          · simp only [updAnts, if_neg he] at hid
            have hold := hinv.stOcc id st hid hfl
            have hrne1 : roomAt paths st ≠ p.Rooms.getD pos "" := by
              intro hcontra
              rw [hcontra, hcurocc] at hold
              exact he hold.symm
            simp only [updOcc]
            rw [if_neg hrne1]
            exact hold
        · intro r hr
          by_cases hrc : r = p.Rooms.getD pos ""
          · subst hrc
            simp only [updOcc, if_pos rfl] at hr
            exact absurd rfl hr
          · simp only [updOcc, if_neg hrc] at hr ⊢
            obtain ⟨st, hk, hfl, hroom⟩ := hinv.occSt r hr
            by_cases hkid : acc.1.occupied r = antID
            · rw [hkid, hlive] at hk
              cases hk
              rw [hroompi] at hroom
              exact absurd hroom.symm hrc
            · refine ⟨st, ?_, hfl, hroom⟩
              simp only [updAnts, if_neg hkid]
              exact hk
        · intro qi id hq
          have hold := hinv.qFresh qi id hq
          have hne : id ≠ antID := by
            intro he
            rw [he, hlive] at hold
            exact Option.noConfusion hold.1
          simp only [updAnts, if_neg hne]
          exact hold
        · exact hinv.qNodup
        · exact hinv.qDisj

lemma foldMove_inv (startName endName : String) (paths : List Path) (antsN pi : Nat)
    (p : Path) (snap : Nat → Option AntState)
    (hp : paths.getD pi default = p) (hpi : pi < paths.length)
    (hwfAll : ∀ q ∈ paths, wfPath startName endName q) :
    ∀ (posList : List Nat) (acc : SimState × List String),
      posList.Nodup → (∀ pos ∈ posList, pos < p.Length) →
      (∀ id pos, pos ∈ posList → snap id = some ⟨pi, pos⟩ →
        acc.1.antsState id = some ⟨pi, pos⟩) →
      SimInv startName endName paths acc.1 →
      SimInv startName endName paths
        (posList.foldl (moveStep startName endName antsN pi p snap) acc).1 ∧
      (posList.foldl (moveStep startName endName antsN pi p snap) acc).1.waitQueues =
        acc.1.waitQueues := by
  intro posList
  induction posList with
  | nil => exact fun acc _ _ _ hinv => ⟨hinv, rfl⟩
  | cons pos rest ih =>
    intro acc hnd hbnd hag hinv
    simp only [List.foldl_cons]
    obtain ⟨hinv', hframe, hwq⟩ :=
      moveStep_inv startName endName paths antsN pi p snap acc pos hp hpi hwfAll
        (hbnd pos (List.mem_cons_self pos rest))
        (fun id h => hag id pos (List.mem_cons_self pos rest) h) hinv
    have hnd' := (List.nodup_cons.mp hnd).2
    have hposnotin := (List.nodup_cons.mp hnd).1
    have hagnew : ∀ id pos', pos' ∈ rest → snap id = some ⟨pi, pos'⟩ →
        (moveStep startName endName antsN pi p snap acc pos).1.antsState id =
          some ⟨pi, pos'⟩ := by
      intro id pos' hmem hsnap
      have hne : snap id ≠ some ⟨pi, pos⟩ := by
        intro hc
        rw [hc] at hsnap
        have heq : pos = pos' := by
          have h2 := Option.some.inj hsnap
          cases h2
          rfl
        exact hposnotin (heq ▸ hmem)
      rw [hframe id hne]
      exact hag id pos' (List.mem_cons_of_mem pos hmem) hsnap
    obtain ⟨hres, hwq2⟩ := ih (moveStep startName endName antsN pi p snap acc pos)
      hnd' (fun q hq => hbnd q (List.mem_cons_of_mem pos hq)) hagnew hinv'
    exact ⟨hres, hwq2.trans hwq⟩

lemma phase1Path_inv (startName endName : String) (paths : List Path) (antsN : Nat)
    (acc : SimState × List String) (pip : Nat × Path)
    (hp : paths.getD pip.1 default = pip.2) (hpi : pip.1 < paths.length)
    (hwfAll : ∀ q ∈ paths, wfPath startName endName q)
    (hinv : SimInv startName endName paths acc.1) :
    SimInv startName endName paths
      (phase1Path startName endName antsN acc pip).1 ∧
    (phase1Path startName endName antsN acc pip).1.waitQueues = acc.1.waitQueues := by
  unfold phase1Path
  exact foldMove_inv startName endName paths antsN pip.1 pip.2 acc.1.antsState hp hpi hwfAll
    (List.range pip.2.Length).reverse acc
    (by simpa using List.nodup_range pip.2.Length)
    (by intro q hq; simpa using List.mem_range.mp (List.mem_reverse.mp hq))
    (fun id pos _ h => h) hinv

lemma mem_enum_facts {α : Type} [Inhabited α] {l : List α} {pip : Nat × α}
    (h : pip ∈ l.enum) : l.getD pip.1 default = pip.2 ∧ pip.1 < l.length := by
  have h1 := List.mem_enum_iff_getElem?.mp h
  have h2 : pip.1 < l.length := by
    by_contra hc
    rw [List.getElem?_eq_none (le_of_not_lt hc)] at h1
    exact Option.noConfusion h1
  refine ⟨?_, h2⟩
  rw [List.getD_eq_getElem?_getD, h1]
  rfl

lemma foldPhase1_inv (startName endName : String) (paths : List Path) (antsN : Nat) :
    ∀ (l : List (Nat × Path)) (acc : SimState × List String),
      (∀ pip ∈ l, paths.getD pip.1 default = pip.2 ∧ pip.1 < paths.length) →
      (∀ q ∈ paths, wfPath startName endName q) →
      SimInv startName endName paths acc.1 →
      SimInv startName endName paths
        (l.foldl (phase1Path startName endName antsN) acc).1 := by
  intro l
  induction l with
  | nil => exact fun acc _ _ hinv => hinv
  | cons pip rest ih =>
    intro acc hmem hwfAll hinv
    simp only [List.foldl_cons]
    have h1 := hmem pip (List.mem_cons_self pip rest)
    obtain ⟨hinv', _⟩ :=
      phase1Path_inv startName endName paths antsN acc pip h1.1 h1.2 hwfAll hinv
    exact ih _ (fun q hq => hmem q (List.mem_cons_of_mem pip hq)) hwfAll hinv'

lemma getD_set_of_getD_cons {wq : List (List Nat)} {pi : Nat} {antID : Nat} {restQ : List Nat}
    (hq : wq.getD pi [] = antID :: restQ) (qi : Nat) :
    (wq.set pi restQ).getD qi [] = if pi = qi then restQ else wq.getD qi [] := by
  have hlt : pi < wq.length := by
    by_contra h
    rw [List.getD_eq_default _ _ (le_of_not_lt h)] at hq
    exact List.noConfusion hq
  rw [List.getD_eq_getElem?_getD, List.getElem?_set, List.getD_eq_getElem?_getD]
  by_cases h : pi = qi
  · subst h
    rw [if_pos rfl, if_pos hlt, if_pos rfl]
    rfl
  · rw [if_neg h, if_neg h]

lemma dispStep_inv (startName endName : String) (paths : List Path)
    (acc : SimState × List String) (pip : Nat × Path)
    (hp : paths.getD pip.1 default = pip.2) (hpi : pip.1 < paths.length)
    (hwfAll : ∀ q ∈ paths, wfPath startName endName q)
    (hinv : SimInv startName endName paths acc.1) :
    SimInv startName endName paths (dispStep startName endName acc pip).1 := by
  cases hq : acc.1.waitQueues.getD pip.1 [] with
  | nil =>
    simp only [dispStep, hq]
    exact hinv
  | cons antID restQ =>
    have hwf : wfPath startName endName pip.2 :=
      hwfAll pip.2 (hp ▸ getD_mem_of_lt paths pip.1 hpi)
    obtain ⟨hlen, hL1, hr0, hrL, hmid⟩ := hwf
    have hplen : plenAt paths pip.1 = pip.2.Length := by rw [plenAt, hp]
    have hfresh := hinv.qFresh pip.1 antID (by rw [hq]; exact List.mem_cons_self antID restQ)
    have hqn := hinv.qNodup pip.1
    rw [hq] at hqn
    have hrq := getD_set_of_getD_cons hq
    simp only [dispStep, hq]
    by_cases hdir : pip.2.Rooms.length = 2
    · rw [if_pos hdir]
      constructor
      · exact hinv.occStart
      · exact hinv.occEnd
      · exact hinv.stBound
      · exact hinv.stOcc
      · exact hinv.occSt
      · intro qi id hmem
        rw [hrq qi] at hmem
        by_cases h : pip.1 = qi
        · rw [if_pos h] at hmem
          exact hinv.qFresh qi id (by rw [← h, hq]; exact List.mem_cons_of_mem antID hmem)
        · rw [if_neg h] at hmem
          exact hinv.qFresh qi id hmem
      · intro qi
        rw [hrq qi]
        by_cases h : pip.1 = qi
        · rw [if_pos h]
          exact (List.nodup_cons.mp hqn).2
        · rw [if_neg h]
          exact hinv.qNodup qi
      · intro qi qj hne id hmi hmj
        rw [hrq qi] at hmi
        rw [hrq qj] at hmj
        have hmi' : id ∈ acc.1.waitQueues.getD qi [] := by
          by_cases h : pip.1 = qi
          · rw [if_pos h] at hmi
            rw [← h, hq]
            exact List.mem_cons_of_mem antID hmi
          · rwa [if_neg h] at hmi
        have hmj' : id ∈ acc.1.waitQueues.getD qj [] := by
          by_cases h : pip.1 = qj
          · rw [if_pos h] at hmj
            rw [← h, hq]
            exact List.mem_cons_of_mem antID hmj
          · rwa [if_neg h] at hmj
        exact hinv.qDisj qi qj hne id hmi' hmj'
    · rw [if_neg hdir]
      have hL2 : 2 ≤ pip.2.Length := by omega
      have hfne := hmid 1 (by omega) le_rfl
      by_cases hfree : pip.2.Rooms.getD 1 "" = endName ∨
          acc.1.occupied (pip.2.Rooms.getD 1 "") = 0
      case neg =>
        rw [if_neg hfree]
        exact hinv
      case pos =>
        rw [if_pos hfree]
        have hocc0 : acc.1.occupied (pip.2.Rooms.getD 1 "") = 0 :=
          hfree.resolve_left hfne.2
        rw [if_pos hfne]
        have hqid : ∀ qi id', id' ∈ (acc.1.waitQueues.set pip.1 restQ).getD qi [] →
            id' ≠ antID ∧ id' ∈ acc.1.waitQueues.getD qi [] := by
          intro qi id' hmem
          rw [hrq qi] at hmem
          by_cases h : pip.1 = qi
          · rw [if_pos h] at hmem
            refine ⟨fun he => (List.nodup_cons.mp hqn).1 (he ▸ hmem), ?_⟩
            rw [← h, hq]
            exact List.mem_cons_of_mem antID hmem
          · rw [if_neg h] at hmem
            refine ⟨fun he => ?_, hmem⟩
            exact hinv.qDisj qi pip.1 (fun hc => h hc.symm) id' hmem
              (by rw [hq, he]; exact List.mem_cons_self antID restQ)
        constructor
        · simp only [updOcc]
          rw [if_neg (Ne.symm hfne.1)]
          exact hinv.occStart
        · simp only [updOcc]
          rw [if_neg (Ne.symm hfne.2)]
          exact hinv.occEnd
        · intro id st hid
          by_cases he : id = antID
          · subst he
            simp only [updAnts, if_pos rfl] at hid
            cases hid
            refine ⟨hpi, ?_, ?_, hfresh.2⟩
            · exact le_rfl
            · show 1 ≤ plenAt paths pip.1
              rw [hplen]
              omega
          · simp only [updAnts, if_neg he] at hid
            exact hinv.stBound id st hid
        · intro id st hid hfl
          by_cases he : id = antID
          · subst he
            simp only [updAnts, if_pos rfl] at hid
            cases hid
            have hra : roomAt paths ⟨pip.1, 1⟩ = pip.2.Rooms.getD 1 "" := by
              show (paths.getD pip.1 default).Rooms.getD 1 "" = pip.2.Rooms.getD 1 ""
              rw [hp]
            rw [hra]
            simp [updOcc]
          · simp only [updAnts, if_neg he] at hid
            have hold := hinv.stOcc id st hid hfl
            have hstb := hinv.stBound id st hid
            have hrne : roomAt paths st ≠ pip.2.Rooms.getD 1 "" := by
              intro hcontra
              rw [hcontra, hocc0] at hold
              omega
            simp only [updOcc]
            rw [if_neg hrne]
            exact hold
        · intro r hr
          by_cases hrf : r = pip.2.Rooms.getD 1 ""
          · subst hrf
            simp only [updOcc, if_pos rfl] at hr ⊢
            refine ⟨⟨pip.1, 1⟩, ?_, ?_, ?_⟩
            · simp [updAnts]
            · show 1 < plenAt paths pip.1
              rw [hplen]
              omega
            · show (paths.getD pip.1 default).Rooms.getD 1 "" = _
              rw [hp]
          · simp only [updOcc, if_neg hrf] at hr ⊢
            obtain ⟨st, hk, hfl, hroom⟩ := hinv.occSt r hr
            by_cases hkid : acc.1.occupied r = antID
            · rw [hkid, hfresh.1] at hk
              exact Option.noConfusion hk
            · refine ⟨st, ?_, hfl, hroom⟩
              simp only [updAnts, if_neg hkid]
              exact hk
        · intro qi id hmem
          obtain ⟨hne, hold⟩ := hqid qi id hmem
          have := hinv.qFresh qi id hold
          simp only [updAnts, if_neg hne]
          exact this
        · intro qi
          rw [hrq qi]
          by_cases h : pip.1 = qi
          · rw [if_pos h]
            exact (List.nodup_cons.mp hqn).2
          · rw [if_neg h]
            exact hinv.qNodup qi
        · intro qi qj hne id hmi hmj
          obtain ⟨_, hi'⟩ := hqid qi id hmi
          obtain ⟨_, hj'⟩ := hqid qj id hmj
          exact hinv.qDisj qi qj hne id hi' hj'

lemma foldPhase2_inv (startName endName : String) (paths : List Path) :
    ∀ (l : List (Nat × Path)) (acc : SimState × List String),
      (∀ pip ∈ l, paths.getD pip.1 default = pip.2 ∧ pip.1 < paths.length) →
      (∀ q ∈ paths, wfPath startName endName q) →
      SimInv startName endName paths acc.1 →
      SimInv startName endName paths
        (l.foldl (dispStep startName endName) acc).1 := by
  intro l
  induction l with
  | nil => exact fun acc _ _ hinv => hinv
  | cons pip rest ih =>
    intro acc hmem hwfAll hinv
    simp only [List.foldl_cons]
    have h1 := hmem pip (List.mem_cons_self pip rest)
    exact ih _ (fun q hq => hmem q (List.mem_cons_of_mem pip hq)) hwfAll
      (dispStep_inv startName endName paths acc pip h1.1 h1.2 hwfAll hinv)

lemma runTurn_inv (startName endName : String) (antsN : Nat) (paths : List Path)
    (s : SimState) (hwfAll : ∀ q ∈ paths, wfPath startName endName q)
    (hinv : SimInv startName endName paths s) :
    SimInv startName endName paths (runTurn startName endName antsN paths s).1 := by
  unfold runTurn
  have henum : ∀ pip ∈ paths.enum, paths.getD pip.1 default = pip.2 ∧ pip.1 < paths.length :=
    fun pip hm => mem_enum_facts hm
  exact foldPhase2_inv startName endName paths paths.enum _ henum hwfAll
    (foldPhase1_inv startName endName paths antsN paths.enum (s, []) henum hwfAll hinv)

lemma buildAssigned_spec : ∀ (counts : List Int) (k : Nat),
    (∀ qi id, id ∈ (buildAssigned counts k).getD qi [] → k ≤ id) ∧
    (∀ qi, ((buildAssigned counts k).getD qi []).Nodup) ∧
    (∀ qi qj id, qi < qj → id ∈ (buildAssigned counts k).getD qi [] →
      id ∈ (buildAssigned counts k).getD qj [] → False) := by
  intro counts
  induction counts with
  | nil =>
    intro k
    refine ⟨?_, ?_, ?_⟩
    · intro qi id h
      simp [buildAssigned] at h
    · intro qi
      simp [buildAssigned]
    · intro qi qj id _ h
      simp [buildAssigned] at h
  | cons c cs ih =>
    intro k
    have hq0 : ∀ id, id ∈ (buildAssigned (c :: cs) k).getD 0 [] →
        k ≤ id ∧ id < k + c.toNat := by
      intro id h
      simp only [buildAssigned, List.getD_cons_zero] at h
      obtain ⟨j, hj, rfl⟩ := List.mem_map.mp h
      have := List.mem_range.mp hj
      omega
    have hqs : ∀ qi, (buildAssigned (c :: cs) k).getD (qi + 1) [] =
        (buildAssigned cs (k + c.toNat)).getD qi [] := by
      intro qi
      simp [buildAssigned]
    refine ⟨?_, ?_, ?_⟩
    · intro qi id h
      cases qi with
      | zero => exact (hq0 id h).1
      | succ qi' =>
        rw [hqs qi'] at h
        have := (ih (k + c.toNat)).1 qi' id h
        omega
    · intro qi
      cases qi with
      | zero =>
        simp only [buildAssigned, List.getD_cons_zero]
        exact List.Nodup.map (fun a b hab => by omega) (List.nodup_range c.toNat)
      | succ qi' =>
        rw [hqs qi']
        exact (ih (k + c.toNat)).2.1 qi'
    · intro qi qj id hlt hi hj
      cases qj with
      | zero => omega
      | succ qj' =>
        rw [hqs qj'] at hj
        cases qi with
        | zero =>
          have h1 := (hq0 id hi).2
          have h2 := (ih (k + c.toNat)).1 qj' id hj
          omega
        | succ qi' =>
          rw [hqs qi'] at hi
          exact (ih (k + c.toNat)).2.2 qi' qj' id (by omega) hi hj

lemma schedInit_inv (startName endName : String) (ants : Int) (paths : List Path) :
    SimInv startName endName (schedSorted paths) (schedInit ants paths) := by
  have hspec := buildAssigned_spec
    (balancerCounts ((schedSorted paths).map Path.Length) ants) 1
  constructor
  · rfl
  · rfl
  · intro id st hid
    exact Option.noConfusion hid
  · intro id st hid
    exact Option.noConfusion hid
  · intro r hr
    exact absurd rfl hr
  · intro qi id hmem
    exact ⟨rfl, hspec.1 qi id hmem⟩
  · exact hspec.2.1
  · intro qi qj hne id hmi hmj
    rcases Nat.lt_or_ge qi qj with h | h
    · exact hspec.2.2 qi qj id h hmi hmj
    · have : qj < qi := by omega
      exact hspec.2.2 qj qi id this hmj hmi

lemma afterTurns_inv (startName endName : String) (antsN : Nat) (paths : List Path)
    (hwfAll : ∀ q ∈ paths, wfPath startName endName q) (s0 : SimState)
    (hinv : SimInv startName endName paths s0) (n : Nat) :
    SimInv startName endName paths (afterTurns startName endName antsN paths n s0) := by
  induction n with
  | zero => exact hinv
  | succ m ihm =>
    unfold afterTurns
    rw [Function.iterate_succ_apply']
    exact runTurn_inv startName endName antsN paths _ hwfAll ihm

/-- C4: at every turn boundary of the simulation run by `scheduler.Run`
(`afterTurns` of the initial state built from the balancer assignment), no two
distinct in-flight ants occupy the same room — in particular no intermediate
room holds two ants — and the occupancy table records no ant in the start or
end room. -/
theorem scheduler_room_exclusivity (startName endName : String) (paths : List Path)
    (ants : Int) (hwf : ∀ p ∈ paths, wfPath startName endName p) (n : Nat) :
    (∀ id₁ id₂ st₁ st₂,
      (afterTurns startName endName ants.toNat (schedSorted paths) n
          (schedInit ants paths)).antsState id₁ = some st₁ →
      (afterTurns startName endName ants.toNat (schedSorted paths) n
          (schedInit ants paths)).antsState id₂ = some st₂ →
      st₁.Pos < plenAt (schedSorted paths) st₁.PathIdx →
      st₂.Pos < plenAt (schedSorted paths) st₂.PathIdx →
      roomAt (schedSorted paths) st₁ = roomAt (schedSorted paths) st₂ → id₁ = id₂) ∧
    (afterTurns startName endName ants.toNat (schedSorted paths) n
        (schedInit ants paths)).occupied startName = 0 ∧
    (afterTurns startName endName ants.toNat (schedSorted paths) n
        (schedInit ants paths)).occupied endName = 0 := by
  have hwfS : ∀ q ∈ schedSorted paths, wfPath startName endName q := by
    intro q hq
    exact hwf q ((List.perm_insertionSort _ paths).mem_iff.mp hq)
  have hinvN := afterTurns_inv startName endName ants.toNat (schedSorted paths) hwfS
    (schedInit ants paths) (schedInit_inv startName endName ants paths) n
  refine ⟨?_, hinvN.occStart, hinvN.occEnd⟩
  intro id₁ id₂ st₁ st₂ h1 h2 hf1 hf2 hroom
  have e1 := hinvN.stOcc id₁ st₁ h1 hf1
  have e2 := hinvN.stOcc id₂ st₂ h2 hf2
  rw [hroom] at e1
  exact e1.symm.trans e2

/-- Witness for `scheduler_room_exclusivity` at a concrete run (two ants on
the single path start–a–end, after one turn). -/
theorem scheduler_room_exclusivity_witness :
    (∀ p ∈ [({ Rooms := ["start", "a", "end"], Length := 2 } : Path)],
        wfPath "start" "end" p) ∧
    ((∀ id₁ id₂ st₁ st₂,
      (afterTurns "start" "end" (2 : Int).toNat
          (schedSorted [({ Rooms := ["start", "a", "end"], Length := 2 } : Path)]) 1
          (schedInit 2 [({ Rooms := ["start", "a", "end"], Length := 2 } : Path)])).antsState
          id₁ = some st₁ →
      (afterTurns "start" "end" (2 : Int).toNat
          (schedSorted [({ Rooms := ["start", "a", "end"], Length := 2 } : Path)]) 1
          (schedInit 2 [({ Rooms := ["start", "a", "end"], Length := 2 } : Path)])).antsState
          id₂ = some st₂ →
      st₁.Pos < plenAt (schedSorted [({ Rooms := ["start", "a", "end"], Length := 2 } : Path)])
          st₁.PathIdx →
      st₂.Pos < plenAt (schedSorted [({ Rooms := ["start", "a", "end"], Length := 2 } : Path)])
          st₂.PathIdx →
      roomAt (schedSorted [({ Rooms := ["start", "a", "end"], Length := 2 } : Path)]) st₁ =
        roomAt (schedSorted [({ Rooms := ["start", "a", "end"], Length := 2 } : Path)]) st₂ →
      id₁ = id₂) ∧
    (afterTurns "start" "end" (2 : Int).toNat
        (schedSorted [({ Rooms := ["start", "a", "end"], Length := 2 } : Path)]) 1
        (schedInit 2 [({ Rooms := ["start", "a", "end"], Length := 2 } : Path)])).occupied
        "start" = 0 ∧
    (afterTurns "start" "end" (2 : Int).toNat
        (schedSorted [({ Rooms := ["start", "a", "end"], Length := 2 } : Path)]) 1
        (schedInit 2 [({ Rooms := ["start", "a", "end"], Length := 2 } : Path)])).occupied
        "end" = 0) :=
  ⟨by decide,
    scheduler_room_exclusivity "start" "end"
      [({ Rooms := ["start", "a", "end"], Length := 2 } : Path)] 2 (by decide) 1⟩

/-- Witness for `balancer_amended` at lengths `[2, 3]` and 4 ants. -/
theorem balancer_amended_witness :
    (([2, 3] : List Nat) ≠ [] ∧ List.Sorted (· ≤ ·) ([2, 3] : List Nat) ∧ (0 : Int) < 4) ∧
    ((balancerCounts [2, 3] 4).sum = 4 ∧
      (∀ i, i < ([2, 3] : List Nat).length → 0 < (balancerCounts [2, 3] 4).getD i 0 →
        ((([2, 3] : List Nat).getD i 0 : Int) - 1) + (balancerCounts [2, 3] 4).getD i 0 ≤
          balancerT [2, 3] 4) ∧
      (∀ ys : List Int, ys.length = ([2, 3] : List Nat).length → (∀ y ∈ ys, 0 ≤ y) →
        ys.sum = 4 → ∃ i, i < ([2, 3] : List Nat).length ∧ 0 < ys.getD i 0 ∧
          balancerT [2, 3] 4 ≤ ((([2, 3] : List Nat).getD i 0 : Int) - 1) + ys.getD i 0)) :=
  ⟨⟨by decide, by decide, by decide⟩,
    balancer_amended [2, 3] 4 (by decide) (by decide) (by decide)⟩

/-! ### No-path behaviour (claim C6) -/

/-- C6: when the Edmonds–Karp loop finishes with total flow 0, `MultiPath`
returns the empty path list, and `main` prints the echoed input, a blank line
and `ERROR: invalid data format, no path found`, exiting with code 0. -/
theorem noPath_behaviour (res : Result) (sN eN : String)
    (hS : res.Graph.Start = some sN) (hE : res.Graph.End = some eN)
    (hflow : (ekLoop (outIdx (List.insertionSort (fun a b => strLe a b = true)
          (res.Graph.Rooms.map Prod.fst)) sN)
        (inIdx (List.insertionSort (fun a b => strLe a b = true) (res.Graph.Rooms.map Prod.fst)) eN) 0
        (ekFuel (buildFG (List.insertionSort (fun a b => strLe a b = true) (res.Graph.Rooms.map Prod.fst))
            (fun nm => res.Graph.Rooms.lookup nm) sN eN)
          (outIdx (List.insertionSort (fun a b => strLe a b = true) (res.Graph.Rooms.map Prod.fst)) sN))
        (buildFG (List.insertionSort (fun a b => strLe a b = true) (res.Graph.Rooms.map Prod.fst))
          (fun nm => res.Graph.Rooms.lookup nm) sN eN) 0).2 = 0) :
    MultiPath res.Graph 0 = [] ∧
    mainOutput res =
      (res.OriginalLines ++ ["", "ERROR: invalid data format, no path found"], 0) := by
  have hmp : MultiPath res.Graph 0 = [] := by
    simp only [MultiPath, hS, hE]
    by_cases hlen : res.Graph.Rooms.length = 0
    · rw [if_pos hlen]
    · rw [if_neg hlen]
      unfold mpCore
      cases hek : ekLoop (outIdx (List.insertionSort (fun a b => strLe a b = true)
            (res.Graph.Rooms.map Prod.fst)) sN)
          (inIdx (List.insertionSort (fun a b => strLe a b = true) (res.Graph.Rooms.map Prod.fst)) eN) 0
          (ekFuel (buildFG (List.insertionSort (fun a b => strLe a b = true)
              (res.Graph.Rooms.map Prod.fst)) (fun nm => res.Graph.Rooms.lookup nm) sN eN)
            (outIdx (List.insertionSort (fun a b => strLe a b = true)
              (res.Graph.Rooms.map Prod.fst)) sN))
          (buildFG (List.insertionSort (fun a b => strLe a b = true) (res.Graph.Rooms.map Prod.fst))
            (fun nm => res.Graph.Rooms.lookup nm) sN eN) 0 with
      | mk G1 tf =>
        rw [hek] at hflow
        simp only at hflow
        simp only [mpCore]
        rw [hek]
        simp [hflow]
  refine ⟨hmp, ?_⟩
  unfold mainOutput
  rw [hmp]

/-- Witness for `noPath_behaviour`: the room `t` is unreachable from `s`. -/
theorem noPath_behaviour_witness :
    ((⟨3, ⟨[("s", ⟨"s", 0, 0, ["a"]⟩), ("t", ⟨"t", 1, 1, []⟩), ("a", ⟨"a", 0, 1, ["s"]⟩)],
        some "s", some "t"⟩, ["3"]⟩ : Result).Graph.Start = some "s" ∧
      (⟨3, ⟨[("s", ⟨"s", 0, 0, ["a"]⟩), ("t", ⟨"t", 1, 1, []⟩), ("a", ⟨"a", 0, 1, ["s"]⟩)],
        some "s", some "t"⟩, ["3"]⟩ : Result).Graph.End = some "t") ∧
    (MultiPath (⟨3, ⟨[("s", ⟨"s", 0, 0, ["a"]⟩), ("t", ⟨"t", 1, 1, []⟩),
        ("a", ⟨"a", 0, 1, ["s"]⟩)], some "s", some "t"⟩, ["3"]⟩ : Result).Graph 0 = [] ∧
      mainOutput (⟨3, ⟨[("s", ⟨"s", 0, 0, ["a"]⟩), ("t", ⟨"t", 1, 1, []⟩),
          ("a", ⟨"a", 0, 1, ["s"]⟩)], some "s", some "t"⟩, ["3"]⟩ : Result) =
        ((⟨3, ⟨[("s", ⟨"s", 0, 0, ["a"]⟩), ("t", ⟨"t", 1, 1, []⟩),
            ("a", ⟨"a", 0, 1, ["s"]⟩)], some "s", some "t"⟩, ["3"]⟩ : Result).OriginalLines ++
          ["", "ERROR: invalid data format, no path found"], 0)) :=
  ⟨⟨rfl, rfl⟩,
    noPath_behaviour
      (⟨3, ⟨[("s", ⟨"s", 0, 0, ["a"]⟩), ("t", ⟨"t", 1, 1, []⟩), ("a", ⟨"a", 0, 1, ["s"]⟩)],
        some "s", some "t"⟩, ["3"]⟩ : Result) "s" "t" rfl rfl (by decide)⟩

/-! ### Determinism (claim C5)

The only non-determinism in the Go core is the iteration order of the
`map[string]*Room`, embedded here as the order of the `Rooms` association
list.  `MultiPath` sorts the collected names (`sort.Strings`), so every
permutation of the room map yields the same path list and the same move
lines. -/

lemma chToNat_inj {a b : Char} (h : a.toNat = b.toNat) : a = b :=
  Char.ext (UInt32.ext (by exact_mod_cast h))

lemma strLtL_asymm : ∀ x y, strLtL x y = true → strLtL y x = false
  | [], [], h => by simp [strLtL] at h
  | [], _ :: _, _ => rfl
  | _ :: _, [], h => by simp [strLtL] at h
  | a :: as, b :: bs, h => by
    simp only [strLtL] at h ⊢
    by_cases hab : a.toNat < b.toNat
    · rw [if_neg (by omega), if_pos hab]
    · by_cases hba : b.toNat < a.toNat
      · rw [if_neg hab, if_pos hba] at h; exact Bool.noConfusion h
      · rw [if_neg hab, if_neg hba] at h
        rw [if_neg hba, if_neg hab]
        exact strLtL_asymm as bs h

lemma strLtL_conn : ∀ x y, strLtL x y = false → strLtL y x = false → x = y
  | [], [], _, _ => rfl
  | [], _ :: _, h, _ => by simp [strLtL] at h
  | _ :: _, [], _, h => by simp [strLtL] at h
  | a :: as, b :: bs, h, h' => by
    simp only [strLtL] at h h'
    by_cases hab : a.toNat < b.toNat
    · rw [if_pos hab] at h; exact Bool.noConfusion h
    · by_cases hba : b.toNat < a.toNat
      · rw [if_pos hba] at h'; exact Bool.noConfusion h'
      · rw [if_neg hab, if_neg hba] at h
        rw [if_neg hba, if_neg hab] at h'
        rw [chToNat_inj (show a.toNat = b.toNat by omega), strLtL_conn as bs h h']

lemma strLtL_trans : ∀ x y z, strLtL x y = true → strLtL y z = true → strLtL x z = true
  | x, [], _, h, _ => absurd h (by cases x <;> simp [strLtL])
  | x, _ :: _, [], _, h' => absurd h' (by simp [strLtL])
  | [], _ :: _, _ :: _, _, _ => rfl
  | a :: as, b :: bs, c :: cs, h, h' => by
    simp only [strLtL] at h h' ⊢
    by_cases h1 : a.toNat < b.toNat
    · by_cases h2 : b.toNat < c.toNat
      · rw [if_pos (by omega)]
      · by_cases h3 : c.toNat < b.toNat
        · rw [if_neg h2, if_pos h3] at h'; exact Bool.noConfusion h'
        · rw [if_pos (show a.toNat < c.toNat by omega)]
    · by_cases h3 : b.toNat < a.toNat
      · rw [if_neg h1, if_pos h3] at h; exact Bool.noConfusion h
      · by_cases h2 : b.toNat < c.toNat
        · rw [if_pos (show a.toNat < c.toNat by omega)]
        · by_cases h4 : c.toNat < b.toNat
          · rw [if_neg h2, if_pos h4] at h'; exact Bool.noConfusion h'
          · rw [if_neg h1, if_neg h3] at h
            rw [if_neg h2, if_neg h4] at h'
            rw [if_neg (show ¬ a.toNat < c.toNat by omega),
              if_neg (show ¬ c.toNat < a.toNat by omega)]
            exact strLtL_trans as bs cs h h'

lemma strToList_inj {s t : String} (h : s.toList = t.toList) : s = t := by
  cases s; cases t
  simp only [String.toList] at h
  exact congrArg String.mk h

instance strLeIsTotal : IsTotal String (fun a b => strLe a b = true) := ⟨by
  intro a b
  simp only [strLe, strLt, Bool.not_eq_true']
  cases h : strLtL (String.toList b) (String.toList a) with
  | false => exact Or.inl rfl
  | true => exact Or.inr (strLtL_asymm _ _ h)⟩

instance strLeIsTrans : IsTrans String (fun a b => strLe a b = true) := ⟨by
  intro a b c hab hbc
  simp only [strLe, strLt, Bool.not_eq_true'] at hab hbc ⊢
  cases hca : strLtL (String.toList c) (String.toList a) with
  | false => rfl
  | true =>
    cases hbc' : strLtL (String.toList b) (String.toList c) with
    | true =>
      have hw := strLtL_trans _ _ _ hbc' hca
      rw [hw] at hab; exact Bool.noConfusion hab
    | false =>
      have hb := strLtL_conn _ _ hbc' hbc
      rw [hb, hca] at hab
      exact Bool.noConfusion hab⟩

instance strLeIsAntisymm : IsAntisymm String (fun a b => strLe a b = true) := ⟨by
  intro a b hab hba
  simp only [strLe, strLt, Bool.not_eq_true'] at hab hba
  exact strToList_inj (strLtL_conn _ _ hba hab)⟩

lemma sortNames_perm_eq {l1 l2 : List String} (h : l1.Perm l2) :
    List.insertionSort (fun a b => strLe a b = true) l1
      = List.insertionSort (fun a b => strLe a b = true) l2 :=
  List.eq_of_perm_of_sorted
    (((List.perm_insertionSort _ l1).trans h).trans (List.perm_insertionSort _ l2).symm)
    (List.sorted_insertionSort _ l1) (List.sorted_insertionSort _ l2)

lemma lookup_mem {β : Type} {a : String} {b : β} :
    ∀ {l : List (String × β)}, l.lookup a = some b → (a, b) ∈ l
  | [], h => Option.noConfusion h
  | (k, v) :: es, h => by
    rw [List.lookup] at h
    cases hk : (a == k) with
    | true =>
      rw [hk] at h
      cases h
      have ha : a = k := eq_of_beq hk
      subst ha
      exact List.mem_cons_self _ _
    | false =>
      rw [hk] at h
      exact List.mem_cons_of_mem _ (lookup_mem h)

lemma lookup_none_iff {β : Type} {a : String} :
    ∀ {l : List (String × β)}, l.lookup a = none ↔ a ∉ l.map Prod.fst
  | [] => by simp
  | (k, v) :: es => by
    rw [List.lookup]
    cases hk : (a == k) with
    | true =>
      simp only [List.map_cons, List.mem_cons]
      constructor
      · intro h; exact Option.noConfusion h
      · intro h; exact absurd (Or.inl (eq_of_beq hk)) h
    | false =>
      simp only [List.map_cons, List.mem_cons]
      rw [lookup_none_iff]
      constructor
      · intro h hm
        rcases hm with hm | hm
        · exact absurd (beq_iff_eq.mpr hm) (by rw [hk]; exact Bool.noConfusion)
        · exact h hm
      · intro h
        exact fun hm => h (Or.inr hm)

lemma mem_lookup_nd {β : Type} {a : String} {b : β} :
    ∀ {l : List (String × β)}, (l.map Prod.fst).Nodup → (a, b) ∈ l → l.lookup a = some b
  | [], _, h => absurd h (List.not_mem_nil _)
  | (k, v) :: es, hnd, h => by
    rw [List.lookup]
    rcases List.mem_cons.mp h with h1 | h1
    · cases h1
      rw [show (a == a) = true from beq_self_eq_true a]
    · have hne : a ≠ k := by
        intro he
        have : k ∈ es.map Prod.fst := by
          subst he
          exact List.mem_map.mpr ⟨(a, b), h1, rfl⟩
        exact (List.nodup_cons.mp hnd).1 this
      rw [show (a == k) = false from beq_eq_false_iff_ne.mpr hne]
      exact mem_lookup_nd (List.nodup_cons.mp hnd).2 h1

lemma lookup_of_perm {β : Type} {l1 l2 : List (String × β)} (hp : l1.Perm l2)
    (hnd : (l1.map Prod.fst).Nodup) (a : String) : l1.lookup a = l2.lookup a := by
  have hnd2 : (l2.map Prod.fst).Nodup := ((hp.map Prod.fst).nodup_iff).mp hnd
  cases h1 : l1.lookup a with
  | some b =>
    exact (mem_lookup_nd hnd2 (hp.mem_iff.mp (lookup_mem h1))).symm
  | none =>
    symm
    rw [lookup_none_iff] at h1 ⊢
    exact fun hm => h1 ((hp.map Prod.fst).mem_iff.mpr hm)

/-- C5: the core is deterministic.  Permuting the room association list — the
embedding of Go's random map iteration order, the pipeline's only source of
non-determinism — changes neither the path list `MultiPath` returns nor a
byte of the output `main` prints. -/
theorem core_deterministic (res res' : Result)
    (hperm : res.Graph.Rooms.Perm res'.Graph.Rooms)
    (hnd : (res.Graph.Rooms.map Prod.fst).Nodup)
    (hS : res'.Graph.Start = res.Graph.Start) (hE : res'.Graph.End = res.Graph.End)
    (hA : res'.Ants = res.Ants) (hO : res'.OriginalLines = res.OriginalLines) :
    MultiPath res'.Graph 0 = MultiPath res.Graph 0 ∧ mainOutput res' = mainOutput res := by
  have hMP : MultiPath res'.Graph 0 = MultiPath res.Graph 0 := by
    simp only [MultiPath, hS, hE]
    cases res.Graph.Start with
    | none => rfl
    | some sN =>
      cases res.Graph.End with
      | none => rfl
      | some eN =>
        rw [show res'.Graph.Rooms.length = res.Graph.Rooms.length from hperm.length_eq.symm,
          sortNames_perm_eq ((hperm.map Prod.fst).symm),
          show (fun nm => res'.Graph.Rooms.lookup nm) = (fun nm => res.Graph.Rooms.lookup nm)
            from funext fun nm => (lookup_of_perm hperm hnd nm).symm]
  refine ⟨hMP, ?_⟩
  unfold mainOutput
  rw [hMP, hO, hA, hS, hE]

/-- Witness for `core_deterministic`: the two-room farm `s — t` with its room
map enumerated in both orders. -/
theorem core_deterministic_witness :
    ((⟨1, ⟨[("s", ⟨"s", 0, 0, ["t"]⟩), ("t", ⟨"t", 1, 1, ["s"]⟩)], some "s", some "t"⟩,
        ["1"]⟩ : Result).Graph.Rooms.Perm
      (⟨1, ⟨[("t", ⟨"t", 1, 1, ["s"]⟩), ("s", ⟨"s", 0, 0, ["t"]⟩)], some "s", some "t"⟩,
        ["1"]⟩ : Result).Graph.Rooms ∧
      ((⟨1, ⟨[("s", ⟨"s", 0, 0, ["t"]⟩), ("t", ⟨"t", 1, 1, ["s"]⟩)], some "s", some "t"⟩,
        ["1"]⟩ : Result).Graph.Rooms.map Prod.fst).Nodup) ∧
    (MultiPath (⟨1, ⟨[("t", ⟨"t", 1, 1, ["s"]⟩), ("s", ⟨"s", 0, 0, ["t"]⟩)], some "s", some "t"⟩,
        ["1"]⟩ : Result).Graph 0 =
      MultiPath (⟨1, ⟨[("s", ⟨"s", 0, 0, ["t"]⟩), ("t", ⟨"t", 1, 1, ["s"]⟩)], some "s", some "t"⟩,
        ["1"]⟩ : Result).Graph 0 ∧
      mainOutput (⟨1, ⟨[("t", ⟨"t", 1, 1, ["s"]⟩), ("s", ⟨"s", 0, 0, ["t"]⟩)], some "s",
          some "t"⟩, ["1"]⟩ : Result) =
        mainOutput (⟨1, ⟨[("s", ⟨"s", 0, 0, ["t"]⟩), ("t", ⟨"t", 1, 1, ["s"]⟩)], some "s",
          some "t"⟩, ["1"]⟩ : Result)) :=
  ⟨⟨List.Perm.swap _ _ _, by decide⟩,
    core_deterministic
      (⟨1, ⟨[("s", ⟨"s", 0, 0, ["t"]⟩), ("t", ⟨"t", 1, 1, ["s"]⟩)], some "s", some "t"⟩,
        ["1"]⟩ : Result)
      (⟨1, ⟨[("t", ⟨"t", 1, 1, ["s"]⟩), ("s", ⟨"s", 0, 0, ["t"]⟩)], some "s", some "t"⟩,
        ["1"]⟩ : Result)
      (List.Perm.swap _ _ _) (by decide) rfl rfl rfl rfl⟩

/-! ### The bottleneck of every augmenting path (claim C7) -/

lemma getD_set_self {α : Type} (l : List α) (i : Nat) (x d : α) (h : i < l.length) :
    (l.set i x).getD i d = x := by
  simp [List.getD_eq_getElem?_getD, List.getElem?_set_self, h]

lemma getD_set_ne {α : Type} (l : List α) {i j : Nat} (x d : α) (h : i ≠ j) :
    (l.set i x).getD j d = l.getD j d := by
  simp [List.getD_eq_getElem?_getD, List.getElem?_set_ne h]

lemma getD_replicate {α : Type} (n : Nat) (x d : α) (i : Nat) :
    (List.replicate n x).getD i d = if i < n then x else d := by
  by_cases h : i < n <;> simp [List.getD_eq_getElem?_getD, List.getElem?_replicate, h]

lemma getD_append_one {α : Type} : ∀ (l : List α) (e d : α) (i : Nat),
    (l ++ [e]).getD i d = if i < l.length then l.getD i d else if i = l.length then e else d
  | [], e, d, 0 => by simp
  | [], e, d, i + 1 => by simp
  | a :: t, e, d, 0 => by simp
  | a :: t, e, d, i + 1 => by
    simp only [List.cons_append, List.getD_cons_succ, List.length_cons]
    rw [getD_append_one t e d i]
    split_ifs <;> first | rfl | omega

/-- Structural facts of the flow network: its size, in-range edge targets,
zero flows, and capacity at most 1 on every edge leaving an odd (`r_out`)
node. -/
def netCat (n : Nat) (G : FGraph) : Prop :=
  G.length = 2 * n ∧
  (∀ u i, i < (G.getD u []).length → (getE G u i).toV < G.length) ∧
  (∀ u i, (getE G u i).flow = 0) ∧
  (∀ j i, (getE G (2 * j + 1) i).cap ≤ 1)

lemma addEdge_getD (G : FGraph) (u v : Nat) (c : Int) (hu : u < G.length)
    (hv : v < G.length) (huv : u ≠ v) :
    (addEdge G u v c).length = G.length ∧
    (addEdge G u v c).getD u [] = (G.getD u []) ++ [⟨v, (G.getD v []).length, c, 0⟩] ∧
    (addEdge G u v c).getD v [] = (G.getD v []) ++ [⟨u, (G.getD u []).length, 0, 0⟩] ∧
    ∀ w, w ≠ u → w ≠ v → (addEdge G u v c).getD w [] = G.getD w [] := by
  unfold addEdge
  have h1 : (G.set u ((G.getD u []) ++ [⟨v, (G.getD v []).length, c, 0⟩])).getD u []
      = (G.getD u []) ++ [⟨v, (G.getD v []).length, c, 0⟩] :=
    getD_set_self _ _ _ _ (by simpa using hu)
  have h2 : (G.set u ((G.getD u []) ++ [⟨v, (G.getD v []).length, c, 0⟩])).getD v []
      = G.getD v [] := getD_set_ne _ _ _ huv
  refine ⟨by simp, ?_, ?_, ?_⟩
  · rw [getD_set_ne _ _ _ (Ne.symm huv), h1]
  · rw [getD_set_self _ _ _ _ (by simpa using hv), h2, h1]
    simp
  · intro w hwu hwv
    rw [getD_set_ne _ _ _ (Ne.symm hwv), getD_set_ne _ _ _ (Ne.symm hwu)]

lemma addEdge_cat {n : Nat} {G : FGraph} {u v : Nat} {c : Int}
    (hu : u < G.length) (hv : v < G.length) (huv : u ≠ v)
    (hodd : (∃ j, u = 2 * j + 1) → c ≤ 1)
    (h : netCat n G) : netCat n (addEdge G u v c) := by
  obtain ⟨hlen, htv, hfl, hcap⟩ := h
  obtain ⟨elen, eu, ev, ew⟩ := addEdge_getD G u v c hu hv huv
  refine ⟨by rw [elen, hlen], ?_, ?_, ?_⟩
  · intro w i hi
    unfold getE
    by_cases hw : w = u
    · rw [hw] at hi ⊢
      rw [eu] at hi ⊢
      rw [getD_append_one]
      simp only [List.length_append, List.length_singleton] at hi
      by_cases h1 : i < (G.getD u []).length
      · rw [if_pos h1, elen]
        exact htv u i h1
      · rw [if_neg h1, if_pos (by omega), elen]
        exact hv
    · by_cases hw2 : w = v
      · rw [hw2] at hi ⊢
        rw [ev] at hi ⊢
        rw [getD_append_one]
        simp only [List.length_append, List.length_singleton] at hi
        by_cases h1 : i < (G.getD v []).length
        · rw [if_pos h1, elen]
          exact htv v i h1
        · rw [if_neg h1, if_pos (by omega), elen]
          exact hu
      · rw [ew w hw hw2] at hi ⊢
        rw [elen]
        exact htv w i hi
  · intro w i
    unfold getE
    by_cases hw : w = u
    · rw [hw, eu, getD_append_one]
      split_ifs with h1 h2
      · exact hfl u i
      · rfl
      · rfl
    · by_cases hw2 : w = v
      · rw [hw2, ev, getD_append_one]
        split_ifs with h1 h2
        · exact hfl v i
        · rfl
        · rfl
      · rw [ew w hw hw2]
        exact hfl w i
  · intro j i
    unfold getE
    by_cases hw : 2 * j + 1 = u
    · rw [hw, eu, getD_append_one]
      split_ifs with h1 h2
      · exact hw ▸ hcap j i
      · exact hodd ⟨j, hw.symm⟩
      · exact Int.le_of_lt Int.zero_lt_one
    · by_cases hw2 : 2 * j + 1 = v
      · rw [hw2, ev, getD_append_one]
        split_ifs with h1 h2
        · exact hw2 ▸ hcap j i
        · exact Int.le_of_lt Int.zero_lt_one
        · exact Int.le_of_lt Int.zero_lt_one
      · rw [ew _ hw hw2]
        exact hcap j i

lemma capFold_cat (names : List String) (sN eN : String) :
    ∀ (l : List String) (G : FGraph), (∀ nm ∈ l, names.indexOf nm < names.length) →
    netCat names.length G →
    netCat names.length (l.foldl (fun G nm => addEdge G (inIdx names nm) (outIdx names nm)
      (if nm = sN ∨ nm = eN then INF else 1)) G)
  | [], G, _, h => h
  | nm :: t, G, hmem, h => by
    rw [List.foldl_cons]
    refine capFold_cat names sN eN t _ (fun x hx => hmem x (List.mem_cons_of_mem _ hx)) ?_
    have hidx := hmem nm (List.mem_cons_self _ _)
    refine addEdge_cat ?_ ?_ ?_ ?_ h
    · rw [h.1]; unfold inIdx; omega
    · rw [h.1]; unfold outIdx; omega
    · unfold inIdx outIdx; omega
    · rintro ⟨j, hj⟩
      unfold inIdx at hj
      omega

lemma addCapEdges_cat (names : List String) (sN eN : String) (G : FGraph)
    (h : netCat names.length G) :
    netCat names.length (addCapEdges names sN eN G) := by
  unfold addCapEdges
  exact capFold_cat names sN eN names G
    (fun nm hm => List.indexOf_lt_length.mpr hm) h

lemma linkInner_cat (names : List String) (nm : String)
    (hnm : names.indexOf nm < names.length) :
    ∀ (ll : List String) (G : FGraph), (∀ v ∈ ll, names.indexOf v < names.length) →
    netCat names.length G →
    netCat names.length (ll.foldl
      (fun G vn => addEdge G (outIdx names nm) (inIdx names vn) 1) G)
  | [], G, _, h => h
  | vn :: t, G, hmem, h => by
    rw [List.foldl_cons]
    refine linkInner_cat names nm hnm t _ (fun x hx => hmem x (List.mem_cons_of_mem _ hx)) ?_
    have hidx := hmem vn (List.mem_cons_self _ _)
    refine addEdge_cat ?_ ?_ ?_ ?_ h
    · rw [h.1]; unfold outIdx; omega
    · rw [h.1]; unfold inIdx; omega
    · unfold inIdx outIdx; omega
    · intro _
      exact le_refl 1

lemma linkFold_cat (names : List String) (lookup : String → Option Room)
    (hlinks : ∀ nm r, lookup nm = some r → ∀ v ∈ r.Links, v ∈ names) :
    ∀ (l : List String) (G : FGraph), (∀ nm ∈ l, names.indexOf nm < names.length) →
    netCat names.length G →
    netCat names.length (l.foldl (fun G nm =>
      (List.insertionSort (fun a b => strLe a b = true)
        (match lookup nm with
         | some r => r.Links
         | none => [])).foldl
        (fun G vn => addEdge G (outIdx names nm) (inIdx names vn) 1) G) G)
  | [], G, _, h => h
  | nm :: t, G, hmem, h => by
    rw [List.foldl_cons]
    refine linkFold_cat names lookup hlinks t _
      (fun x hx => hmem x (List.mem_cons_of_mem _ hx)) ?_
    refine linkInner_cat names nm (hmem nm (List.mem_cons_self _ _)) _ G ?_ h
    intro v hv
    have hv2 : v ∈ (match lookup nm with
        | some r => r.Links
        | none => []) := (List.perm_insertionSort _ _).mem_iff.mp hv
    cases hlk : lookup nm with
    | none => rw [hlk] at hv2; exact absurd hv2 (List.not_mem_nil v)
    | some r =>
      rw [hlk] at hv2
      exact List.indexOf_lt_length.mpr (hlinks nm r hlk v hv2)

lemma buildFG_cat (names : List String) (lookup : String → Option Room) (sN eN : String)
    (hlinks : ∀ nm r, lookup nm = some r → ∀ v ∈ r.Links, v ∈ names) :
    netCat names.length (buildFG names lookup sN eN) := by
  unfold buildFG addLinkEdges
  refine linkFold_cat names lookup hlinks names _
    (fun nm hm => List.indexOf_lt_length.mpr hm) ?_
  refine addCapEdges_cat names sN eN _ ?_
  refine ⟨by simp, ?_, ?_, ?_⟩
  · intro u i hi
    rw [getD_replicate] at hi
    split_ifs at hi with h1
    · exact absurd hi (by simp)
    · exact absurd hi (by simp)
  · intro u i
    unfold getE
    rw [getD_replicate]
    split_ifs <;> rfl
  · intro j i
    unfold getE
    rw [getD_replicate]
    split_ifs <;> simp

lemma chainOK_set_unset {G : FGraph} {par : List ParI} {source w : Nat} {x : ParI}
    (hw : (par.getD w ⟨-1, -1⟩).u = -1) :
    ∀ n v, chainOK G par source n v → chainOK G (par.set w x) source n v
  | 0, _, h => h
  | n + 1, v, h => by
    cases h with
    | inl h => exact Or.inl h
    | inr h =>
      obtain ⟨h1, h2, h3, h4, h5, h6, h7⟩ := h
      have hvw : w ≠ v := by
        intro he
        rw [← he, hw] at h1
        omega
      right
      rw [getD_set_ne par x ⟨-1, -1⟩ hvw]
      exact ⟨h1, h2, h3, h4, h5, h6, chainOK_set_unset hw n _ h7⟩

lemma numSet_le_length (par : List ParI) : numSet par ≤ par.length :=
  List.countP_le_length _

lemma numSet_set_succ : ∀ (par : List ParI) (w : Nat) (x : ParI),
    w < par.length → (par.getD w ⟨-1, -1⟩).u = -1 → x.u ≠ -1 →
    numSet par + 1 ≤ numSet (par.set w x)
  | [], w, x, hw, _, _ => absurd hw (by simp)
  | p :: t, 0, x, _, hp, hx => by
    unfold numSet
    simp only [List.set_cons_zero, List.countP_cons]
    have hp0 : p.u = -1 := by simpa using hp
    simp [hp0, hx]
  | p :: t, w + 1, x, hw, hp, hx => by
    unfold numSet
    simp only [List.set_cons_succ, List.countP_cons]
    have := numSet_set_succ t w x (by simpa using hw) (by simpa using hp) hx
    unfold numSet at this
    omega

/-- `bfsScan` unrolled to structural recursion over the edge indices. -/
def scanGo (G : FGraph) (u : Nat) : List Nat → List ParI × List Nat → List ParI × List Nat
  | [], pq => pq
  | ei :: t, pq =>
    let e := getE G u ei
    scanGo G u t (if (pq.1.getD e.toV ⟨-1, -1⟩).u = -1 ∧ e.cap - e.flow > 0 then
      (pq.1.set e.toV ⟨(u : Int), (ei : Int)⟩, pq.2 ++ [e.toV])
    else pq)

lemma foldl_eq_scanGo (G : FGraph) (u : Nat) : ∀ (l : List Nat) (pq : List ParI × List Nat),
    l.foldl (fun pq ei =>
      let e := getE G u ei
      if (pq.1.getD e.toV ⟨-1, -1⟩).u = -1 ∧ e.cap - e.flow > 0 then
        (pq.1.set e.toV ⟨(u : Int), (ei : Int)⟩, pq.2 ++ [e.toV])
      else pq) pq = scanGo G u l pq
  | [], pq => rfl
  | ei :: t, pq => by
    rw [List.foldl_cons, scanGo, foldl_eq_scanGo G u t]

lemma bfsScan_eq_scanGo (G : FGraph) (u : Nat) (pq : List ParI × List Nat) :
    bfsScan G u pq = scanGo G u (List.range (G.getD u []).length) pq := by
  unfold bfsScan
  exact foldl_eq_scanGo G u _ pq

lemma scanGo_inv (G : FGraph) (source u : Nat)
    (hVG : ∀ w i, i < (G.getD w []).length → (getE G w i).toV < G.length)
    (hu : u < G.length) :
    ∀ (l : List Nat) (par : List ParI) (q : List Nat),
      (∀ ei ∈ l, ei < (G.getD u []).length) →
      (par.getD u ⟨-1, -1⟩).u ≠ -1 →
      BfsInv G source par q →
      BfsInv G source (scanGo G u l (par, q)).1 (scanGo G u l (par, q)).2
  | [], par, q, _, _, hinv => hinv
  | ei :: t, par, q, hl, huset, hinv => by
    rw [scanGo]
    dsimp only
    by_cases hg : (par.getD (getE G u ei).toV ⟨-1, -1⟩).u = -1 ∧
        (getE G u ei).cap - (getE G u ei).flow > 0
    · rw [if_pos hg]
      obtain ⟨hgu, hres⟩ := hg
      obtain ⟨hlen, hq, hpart⟩ := hinv
      have hei : ei < (G.getD u []).length := hl ei (List.mem_cons_self _ _)
      have hw : (getE G u ei).toV < G.length := hVG u ei hei
      have hwpar : (getE G u ei).toV < par.length := by rw [hlen]; exact hw
      have huw : u ≠ (getE G u ei).toV := by
        intro he
        rw [← he] at hgu
        exact huset hgu
      have hset : ((par.set (getE G u ei).toV ⟨(u : Int), (ei : Int)⟩).getD
          (getE G u ei).toV ⟨-1, -1⟩) = ⟨(u : Int), (ei : Int)⟩ :=
        getD_set_self _ _ _ _ hwpar
      refine scanGo_inv G source u hVG hu t _ _
        (fun x hx => hl x (List.mem_cons_of_mem _ hx)) ?_ ?_
      · rw [getD_set_ne par _ _ (fun he => huw he.symm)]
        exact huset
      · refine ⟨by simpa using hlen, ?_, ?_⟩
        · intro v hv
          rcases List.mem_append.mp hv with hv1 | hv1
          · obtain ⟨hvl, hvset⟩ := hq v hv1
            have hvw : (getE G u ei).toV ≠ v := by
              intro he
              rw [he] at hgu
              exact hvset hgu
            rw [getD_set_ne par _ _ hvw]
            exact ⟨hvl, hvset⟩
          · have hv2 : v = (getE G u ei).toV := by simpa using hv1
            subst hv2
            rw [hset]
            refine ⟨hw, ?_⟩
            simp
        · intro v hv hvset
          by_cases hvw : v = (getE G u ei).toV
          · subst hvw
            obtain ⟨n, hn, hch⟩ := hpart u hu huset
            refine ⟨n + 1, ?_, ?_⟩
            · have := numSet_set_succ par (getE G u ei).toV ⟨(u : Int), (ei : Int)⟩ hwpar
                hgu (by simp)
              omega
            · right
              rw [hset]
              refine ⟨by simp, by simp, ?_, ?_, ?_, ?_, ?_⟩
              · simpa using hu
              · simpa using hei
              · simp
              · simpa using hres
              · have hc := chainOK_set_unset (x := ⟨(u : Int), (ei : Int)⟩) hgu n u hch
                simpa using hc
          · rw [getD_set_ne par _ _ (fun he => hvw he.symm)] at hvset
            obtain ⟨n, hn, hch⟩ := hpart v hv hvset
            refine ⟨n, ?_, chainOK_set_unset hgu n v hch⟩
            have := numSet_set_succ par (getE G u ei).toV ⟨(u : Int), (ei : Int)⟩ hwpar hgu
              (by simp)
            omega
    · rw [if_neg hg]
      exact scanGo_inv G source u hVG hu t par q
        (fun x hx => hl x (List.mem_cons_of_mem _ hx)) huset hinv

lemma bfsLoop_inv (G : FGraph) (source sink : Nat)
    (hVG : ∀ w i, i < (G.getD w []).length → (getE G w i).toV < G.length) :
    ∀ (fuel : Nat) (q : List Nat) (par : List ParI),
      BfsInv G source par q →
      ∃ q', BfsInv G source (bfsLoop G sink fuel q par) q'
  | 0, q, par, hinv => ⟨q, hinv⟩
  | fuel + 1, [], par, hinv => ⟨[], hinv⟩
  | fuel + 1, u :: qs, par, hinv => by
    rw [bfsLoop]
    by_cases hus : u = sink
    · rw [if_pos hus]
      exact ⟨u :: qs, hinv⟩
    · rw [if_neg hus]
      obtain ⟨hlen, hq, hpart⟩ := hinv
      obtain ⟨hul, huset⟩ := hq u (List.mem_cons_self _ _)
      have hinv2 : BfsInv G source par qs :=
        ⟨hlen, fun v hv => hq v (List.mem_cons_of_mem _ hv), hpart⟩
      have hscan := scanGo_inv G source u hVG hul (List.range ((G.getD u []).length)) par qs
        (fun ei hei => List.mem_range.mp hei) huset hinv2
      rw [bfsScan_eq_scanGo]
      cases hsg : scanGo G u (List.range ((G.getD u []).length)) (par, qs) with
      | mk par2 q2 =>
        rw [hsg] at hscan
        exact bfsLoop_inv G source sink hVG fuel q2 par2 hscan

lemma bfsRun_found (G : FGraph) (source sink : Nat)
    (hVG : ∀ w i, i < (G.getD w []).length → (getE G w i).toV < G.length)
    (hsource : source < G.length) :
    ∀ v, v < G.length → ((bfsRun G source sink).getD v ⟨-1, -1⟩).u ≠ -1 →
      ∃ n, n ≤ G.length ∧ chainOK G (bfsRun G source sink) source n v := by
  have hinv0 : BfsInv G source
      ((List.replicate G.length (⟨-1, -1⟩ : ParI)).set source ⟨(source : Int), -1⟩)
      [source] := by
    refine ⟨by simp, ?_, ?_⟩
    · intro v hv
      have hvs : v = source := by simpa using hv
      subst hvs
      refine ⟨hsource, ?_⟩
      rw [getD_set_self _ _ _ _ (by simpa using hsource)]
      simp
    · intro v hv hvset
      by_cases hvs : v = source
      · subst hvs
        exact ⟨0, Nat.zero_le _, rfl⟩
      · rw [getD_set_ne _ _ _ (fun he => hvs he.symm), getD_replicate, if_pos hv] at hvset
        exact absurd rfl hvset
  obtain ⟨q', hinv⟩ := bfsLoop_inv G source sink hVG (G.length + 1) [source] _ hinv0
  intro v hv hvset
  obtain ⟨n, hn, hch⟩ := hinv.2.2 v hv hvset
  refine ⟨n, ?_, hch⟩
  calc n ≤ numSet (bfsRun G source sink) := hn
    _ ≤ (bfsRun G source sink).length := numSet_le_length _
    _ = G.length := hinv.1

lemma walkMin_at_source (G : FGraph) (source : Nat) (par : List ParI) :
    ∀ (fuel : Nat) (acc : Int), walkMin G source par fuel source acc = acc
  | 0, _ => rfl
  | fuel + 1, acc => by
    rw [walkMin, if_pos rfl]

lemma walkMin_ge_one (G : FGraph) (source : Nat) (par : List ParI) :
    ∀ (n fuel : Nat) (v : Nat) (acc : Int), chainOK G par source n v → n < fuel →
      1 ≤ acc → 1 ≤ walkMin G source par fuel v acc
  | 0, fuel, v, acc, hch, _, hacc => by
    have hv : v = source := hch
    subst hv
    rw [walkMin_at_source]
    exact hacc
  | n + 1, fuel + 1, v, acc, hch, hf, hacc => by
    cases hch with
    | inl hv =>
      subst hv
      rw [walkMin_at_source]
      exact hacc
    | inr hch =>
      obtain ⟨h1, h2, h3, h4, h5, h6, h7⟩ := hch
      rw [walkMin]
      by_cases hv : v = source
      · rw [if_pos hv]
        exact hacc
      · rw [if_neg hv]
        refine walkMin_ge_one G source par n fuel _ _ h7 (by omega) ?_
        dsimp only
        split_ifs with hlt
        · omega
        · exact hacc

lemma walkMin_le_src_resid (G : FGraph) (source : Nat) (par : List ParI) :
    ∀ (n fuel : Nat) (v : Nat) (acc : Int), chainOK G par source n v → n < fuel →
      v ≠ source →
      ∃ i, i < (G.getD source []).length ∧
        0 < (getE G source i).cap - (getE G source i).flow ∧
        walkMin G source par fuel v acc ≤ (getE G source i).cap - (getE G source i).flow
  | 0, fuel, v, acc, hch, _, hvs => absurd hch hvs
  | n + 1, fuel + 1, v, acc, hch, hf, hvs => by
    cases hch with
    | inl hv => exact absurd hv hvs
    | inr hch =>
      obtain ⟨h1, h2, h3, h4, h5, h6, h7⟩ := hch
      rw [walkMin, if_neg hvs]
      dsimp only
      by_cases hns : (par.getD v ⟨-1, -1⟩).u.toNat = source
      · rw [hns] at h4 h6 h7 ⊢
        refine ⟨(par.getD v ⟨-1, -1⟩).ei.toNat, h4, h6, ?_⟩
        rw [walkMin_at_source]
        split_ifs with hlt
        · exact le_refl _
        · omega
      · obtain ⟨i, hi, hres, hle⟩ := walkMin_le_src_resid G source par n fuel
          (par.getD v ⟨-1, -1⟩).u.toNat _ h7 (by omega) hns
        exact ⟨i, hi, hres, hle⟩

lemma setE_length (G : FGraph) (u i : Nat) (e : HEdge) : (setE G u i e).length = G.length := by
  simp [setE]

lemma setE_getD_ne_node (G : FGraph) (u i : Nat) (e : HEdge) {w : Nat} (hw : w ≠ u) :
    (setE G u i e).getD w [] = G.getD w [] :=
  getD_set_ne _ _ _ (fun he => hw he.symm)

lemma setE_getD_node (G : FGraph) (u i : Nat) (e : HEdge) :
    (setE G u i e).getD u [] = (G.getD u []).set i e := by
  unfold setE
  by_cases hu : u < G.length
  · exact getD_set_self _ _ _ _ (by simpa using hu)
  · rw [List.set_eq_of_length_le (by simpa using Nat.le_of_not_lt hu)]
    have h0 : G.getD u [] = [] := by
      rw [List.getD_eq_getElem?_getD, List.getElem?_eq_none (by simpa using Nat.le_of_not_lt hu)]
      rfl
    rw [h0]
    rfl

lemma getE_setE_ne_node (G : FGraph) (u i : Nat) (e : HEdge) {w : Nat} (hw : w ≠ u)
    (j : Nat) : getE (setE G u i e) w j = getE G w j := by
  unfold getE
  rw [setE_getD_ne_node _ _ _ _ hw]

lemma shapeEq_refl (G : FGraph) : shapeEq G G :=
  ⟨rfl, fun _ _ => ⟨rfl, rfl, rfl, rfl⟩⟩

lemma shapeEq_trans {G1 G2 G3 : FGraph} (h1 : shapeEq G1 G2) (h2 : shapeEq G2 G3) :
    shapeEq G1 G3 := by
  obtain ⟨ha, hb⟩ := h1
  obtain ⟨hc, hd⟩ := h2
  refine ⟨ha.trans hc, fun u i => ?_⟩
  obtain ⟨e1, e2, e3, e4⟩ := hb u i
  obtain ⟨f1, f2, f3, f4⟩ := hd u i
  exact ⟨e1.trans f1, e2.trans f2, e3.trans f3, e4.trans f4⟩

lemma setE_shapeEq (G : FGraph) (u i : Nat) (e : HEdge) (ht : e.toV = (getE G u i).toV)
    (hr : e.rev = (getE G u i).rev) (hc : e.cap = (getE G u i).cap) :
    shapeEq G (setE G u i e) := by
  refine ⟨(setE_length G u i e).symm, fun w j => ?_⟩
  by_cases hw : w = u
  · subst hw
    rw [setE_getD_node]
    unfold getE
    rw [setE_getD_node]
    by_cases hj : j = i
    · subst hj
      by_cases hlt : j < (G.getD w []).length
      · rw [getD_set_self _ _ _ _ hlt]
        unfold getE at ht hr hc
        exact ⟨by simp, ht.symm, hr.symm, hc.symm⟩
      · rw [List.set_eq_of_length_le (Nat.le_of_not_lt hlt)]
        exact ⟨rfl, rfl, rfl, rfl⟩
    · rw [getD_set_ne _ _ _ (fun he => hj he.symm)]
      exact ⟨by simp, rfl, rfl, rfl⟩
  · rw [setE_getD_ne_node G u i e hw]
    unfold getE
    rw [setE_getD_ne_node G u i e hw]
    exact ⟨rfl, rfl, rfl, rfl⟩

lemma shapeEq_getE {G G' : FGraph} (h : shapeEq G G') (u i : Nat) :
    (getE G u i).toV = (getE G' u i).toV ∧ (getE G u i).rev = (getE G' u i).rev ∧
    (getE G u i).cap = (getE G' u i).cap ∧
    (G.getD u []).length = (G'.getD u []).length :=
  ⟨(h.2 u i).2.1, (h.2 u i).2.2.1, (h.2 u i).2.2.2, (h.2 u i).1⟩

lemma augWalk_at_source (source : Nat) (par : List ParI) :
    ∀ (fuel : Nat) (G : FGraph) (b : Int), augWalk source par fuel G source b = G
  | 0, _, _ => rfl
  | fuel + 1, G, b => by rw [augWalk, if_pos rfl]

lemma augWalk_shapeEq (source : Nat) (par : List ParI) :
    ∀ (fuel : Nat) (v : Nat) (G : FGraph) (b : Int),
      shapeEq G (augWalk source par fuel G v b)
  | 0, _, G, _ => shapeEq_refl G
  | fuel + 1, v, G, b => by
    rw [augWalk]
    by_cases hv : v = source
    · rw [if_pos hv]
      exact shapeEq_refl G
    · rw [if_neg hv]
      dsimp only
      refine shapeEq_trans ?_ (augWalk_shapeEq source par fuel _ _ b)
      refine shapeEq_trans ?_ (setE_shapeEq _ _ _ _ rfl rfl rfl)
      exact setE_shapeEq _ _ _ _ rfl rfl rfl

lemma augWalk_src_nonneg (source : Nat) (par : List ParI) (b : Int) (Gref : FGraph)
    (hb : 0 < b) :
    ∀ (n fuel : Nat) (v : Nat) (G : FGraph), chainOK Gref par source n v → n < fuel →
      shapeEq Gref G →
      (∀ i, i < (G.getD source []).length → 0 ≤ (getE G source i).flow) →
      ∀ i, i < ((augWalk source par fuel G v b).getD source []).length →
        0 ≤ (getE (augWalk source par fuel G v b) source i).flow
  | 0, fuel, v, G, hch, _, _, hsrc => by
    have hv : v = source := hch
    subst hv
    rw [augWalk_at_source]
    exact hsrc
  | n + 1, fuel + 1, v, G, hch, hf, hsh, hsrc => by
    cases hch with
    | inl hv =>
      subst hv
      rw [augWalk_at_source]
      exact hsrc
    | inr hch =>
      obtain ⟨h1, h2, h3, h4, h5, h6, h7⟩ := hch
      rw [augWalk]
      by_cases hv : v = source
      · rw [if_pos hv]
        exact hsrc
      · rw [if_neg hv]
        dsimp only
        have htv : (getE G (par.getD v ⟨-1, -1⟩).u.toNat (par.getD v ⟨-1, -1⟩).ei.toNat).toV
            = v := by
          rw [← (shapeEq_getE hsh _ _).1]
          exact h5
        have hlen0 : (par.getD v ⟨-1, -1⟩).ei.toNat <
            (G.getD (par.getD v ⟨-1, -1⟩).u.toNat []).length := by
          rw [← (shapeEq_getE hsh (par.getD v ⟨-1, -1⟩).u.toNat 0).2.2.2]
          exact h4
        have hsrc1 : ∀ j, j < ((setE G (par.getD v ⟨-1, -1⟩).u.toNat
              (par.getD v ⟨-1, -1⟩).ei.toNat
              { getE G (par.getD v ⟨-1, -1⟩).u.toNat (par.getD v ⟨-1, -1⟩).ei.toNat with
                flow := (getE G (par.getD v ⟨-1, -1⟩).u.toNat
                  (par.getD v ⟨-1, -1⟩).ei.toNat).flow + b }).getD source []).length →
            0 ≤ (getE (setE G (par.getD v ⟨-1, -1⟩).u.toNat (par.getD v ⟨-1, -1⟩).ei.toNat
              { getE G (par.getD v ⟨-1, -1⟩).u.toNat (par.getD v ⟨-1, -1⟩).ei.toNat with
                flow := (getE G (par.getD v ⟨-1, -1⟩).u.toNat
                  (par.getD v ⟨-1, -1⟩).ei.toNat).flow + b }) source j).flow := by
          intro j hj
          by_cases hu0 : (par.getD v ⟨-1, -1⟩).u.toNat = source
          · rw [hu0] at hj ⊢
            unfold getE at hj ⊢
            rw [setE_getD_node] at hj ⊢
            simp only [List.length_set] at hj
            by_cases hji : j = (par.getD v ⟨-1, -1⟩).ei.toNat
            · rw [hji]
              rw [getD_set_self _ _ _ _ (by rw [← hu0]; exact hlen0)]
              have hs0 := hsrc (par.getD v ⟨-1, -1⟩).ei.toNat (by rw [← hu0]; exact hlen0)
              unfold getE at hs0
              dsimp only
              omega
            · rw [getD_set_ne _ _ _ (fun he => hji he.symm)]
              have hs0 := hsrc j hj
              unfold getE at hs0
              exact hs0
          · rw [setE_getD_ne_node _ _ _ _ (fun he => hu0 he.symm)] at hj
            unfold getE
            rw [setE_getD_ne_node _ _ _ _ (fun he => hu0 he.symm)]
            have hs0 := hsrc j hj
            unfold getE at hs0
            exact hs0
        refine augWalk_src_nonneg source par b Gref hb n fuel _ _ h7 (by omega) ?_ ?_
        · refine shapeEq_trans hsh ?_
          refine shapeEq_trans ?_ (setE_shapeEq _ _ _ _ rfl rfl rfl)
          exact setE_shapeEq _ _ _ _ rfl rfl rfl
        · have hne2 : source ≠ (getE G (par.getD v ⟨-1, -1⟩).u.toNat
              (par.getD v ⟨-1, -1⟩).ei.toNat).toV := by
            rw [htv]
            exact fun he => hv he.symm
          intro j hj
          rw [setE_getD_ne_node _ _ _ _ hne2] at hj
          rw [getE_setE_ne_node _ _ _ _ hne2]
          exact hsrc1 j hj

lemma shapeEq_toVBound {G0 G : FGraph} (hsh : shapeEq G0 G)
    (h : ∀ u i, i < (G0.getD u []).length → (getE G0 u i).toV < G0.length) :
    ∀ u i, i < (G.getD u []).length → (getE G u i).toV < G.length := by
  intro u i hi
  rw [← (shapeEq_getE hsh u i).1, ← hsh.1]
  exact h u i (by rw [(shapeEq_getE hsh u i).2.2.2]; exact hi)

lemma ekStep_iterate_inv (names : List String) (lookup : String → Option Room)
    (sN eN : String)
    (hlinks : ∀ nm r, lookup nm = some r → ∀ v ∈ r.Links, v ∈ names)
    (hs : sN ∈ names) (he : eN ∈ names) :
    ∀ k : Nat,
      shapeEq (buildFG names lookup sN eN)
        ((ekStep (outIdx names sN) (inIdx names eN))^[k] (buildFG names lookup sN eN)) ∧
      (∀ i, i < (((ekStep (outIdx names sN) (inIdx names eN))^[k]
          (buildFG names lookup sN eN)).getD (outIdx names sN) []).length →
        0 ≤ (getE ((ekStep (outIdx names sN) (inIdx names eN))^[k]
          (buildFG names lookup sN eN)) (outIdx names sN) i).flow)
  | 0 => by
    simp only [Function.iterate_zero_apply]
    constructor
    · exact shapeEq_refl _
    · intro i _
      rw [(buildFG_cat names lookup sN eN hlinks).2.2.1 (outIdx names sN) i]
  | k + 1 => by
    obtain ⟨hsh, hpos⟩ := ekStep_iterate_inv names lookup sN eN hlinks hs he k
    rw [Function.iterate_succ_apply']
    have hcat := buildFG_cat names lookup sN eN hlinks
    have hVG := shapeEq_toVBound hsh hcat.2.1
    have hGlen : ((ekStep (outIdx names sN) (inIdx names eN))^[k]
        (buildFG names lookup sN eN)).length = 2 * names.length := by
      rw [← hsh.1]
      exact hcat.1
    have hsrcLt : outIdx names sN < ((ekStep (outIdx names sN) (inIdx names eN))^[k]
        (buildFG names lookup sN eN)).length := by
      rw [hGlen]
      have hidx := List.indexOf_lt_length.mpr hs
      unfold outIdx
      omega
    have hsnkLt : inIdx names eN < ((ekStep (outIdx names sN) (inIdx names eN))^[k]
        (buildFG names lookup sN eN)).length := by
      rw [hGlen]
      have hidx := List.indexOf_lt_length.mpr he
      unfold inIdx
      omega
    have hstep : ∀ X : FGraph, ekStep (outIdx names sN) (inIdx names eN) X
        = (bfsStep X (outIdx names sN) (inIdx names eN)).1 := fun _ => rfl
    rw [hstep]
    unfold bfsStep
    dsimp only
    by_cases hfound : ((bfsRun ((ekStep (outIdx names sN) (inIdx names eN))^[k]
        (buildFG names lookup sN eN)) (outIdx names sN) (inIdx names eN)).getD
        (inIdx names eN) ⟨-1, -1⟩).u = -1
    · rw [if_pos hfound]
      exact ⟨hsh, hpos⟩
    · rw [if_neg hfound]
      by_cases hb : walkMin ((ekStep (outIdx names sN) (inIdx names eN))^[k]
          (buildFG names lookup sN eN)) (outIdx names sN)
          (bfsRun ((ekStep (outIdx names sN) (inIdx names eN))^[k]
            (buildFG names lookup sN eN)) (outIdx names sN) (inIdx names eN))
          (((ekStep (outIdx names sN) (inIdx names eN))^[k]
            (buildFG names lookup sN eN)).length + 1) (inIdx names eN) INF ≤ 0
      · rw [if_pos hb]
        exact ⟨hsh, hpos⟩
      · rw [if_neg hb]
        obtain ⟨n, hn, hch⟩ := bfsRun_found _ (outIdx names sN) (inIdx names eN) hVG
          hsrcLt (inIdx names eN) hsnkLt hfound
        constructor
        · exact shapeEq_trans hsh (augWalk_shapeEq _ _ _ _ _ _)
        · exact augWalk_src_nonneg (outIdx names sN) _ _ _ (by omega) n
            (((ekStep (outIdx names sN) (inIdx names eN))^[k]
              (buildFG names lookup sN eN)).length + 1) (inIdx names eN) _ hch
            (by omega) (shapeEq_refl _) hpos

/-- C7: in every iteration of the Edmonds–Karp loop (the `k`-th iterate of
`ekStep` starting from the freshly built network) in which the BFS finds an
augmenting path, the bottleneck computed by `walkMin` along the reconstructed
path equals exactly 1, so `bfs` pushes exactly one unit of flow. -/
theorem ek_bottleneck_one (names : List String) (lookup : String → Option Room)
    (sN eN : String) (k : Nat) (source sink : Nat) (G : FGraph)
    (hsrc : source = outIdx names sN) (hsnk : sink = inIdx names eN)
    (hG : G = (ekStep source sink)^[k] (buildFG names lookup sN eN))
    (hs : sN ∈ names) (he : eN ∈ names)
    (hlinks : ∀ nm r, lookup nm = some r → ∀ v ∈ r.Links, v ∈ names)
    (hfound : ((bfsRun G source sink).getD sink ⟨-1, -1⟩).u ≠ -1) :
    walkMin G source (bfsRun G source sink) (G.length + 1) sink INF = 1 ∧
      (bfsStep G source sink).2 = 1 := by
  subst hsrc
  subst hsnk
  subst hG
  obtain ⟨hsh, hpos⟩ := ekStep_iterate_inv names lookup sN eN hlinks hs he k
  have hcat := buildFG_cat names lookup sN eN hlinks
  have hVG := shapeEq_toVBound hsh hcat.2.1
  have hGlen : ((ekStep (outIdx names sN) (inIdx names eN))^[k]
      (buildFG names lookup sN eN)).length = 2 * names.length := by
    rw [← hsh.1]
    exact hcat.1
  have hsrcLt : outIdx names sN < ((ekStep (outIdx names sN) (inIdx names eN))^[k]
      (buildFG names lookup sN eN)).length := by
    rw [hGlen]
    have hidx := List.indexOf_lt_length.mpr hs
    unfold outIdx
    omega
  have hsnkLt : inIdx names eN < ((ekStep (outIdx names sN) (inIdx names eN))^[k]
      (buildFG names lookup sN eN)).length := by
    rw [hGlen]
    have hidx := List.indexOf_lt_length.mpr he
    unfold inIdx
    omega
  obtain ⟨n, hn, hch⟩ := bfsRun_found _ (outIdx names sN) (inIdx names eN) hVG hsrcLt
    (inIdx names eN) hsnkLt hfound
  have hne : inIdx names eN ≠ outIdx names sN := by
    unfold inIdx outIdx
    omega
  have hlow := walkMin_ge_one _ (outIdx names sN) _ n
    (((ekStep (outIdx names sN) (inIdx names eN))^[k]
      (buildFG names lookup sN eN)).length + 1) (inIdx names eN) INF hch (by omega)
    (by unfold INF; omega)
  obtain ⟨i, hi, hres, hle⟩ := walkMin_le_src_resid _ (outIdx names sN) _ n
    (((ekStep (outIdx names sN) (inIdx names eN))^[k]
      (buildFG names lookup sN eN)).length + 1) (inIdx names eN) INF hch (by omega) hne
  have hcap : (getE ((ekStep (outIdx names sN) (inIdx names eN))^[k]
      (buildFG names lookup sN eN)) (outIdx names sN) i).cap ≤ 1 := by
    rw [← (shapeEq_getE hsh (outIdx names sN) i).2.2.1]
    have hc := hcat.2.2.2 (names.indexOf sN) i
    unfold outIdx
    exact hc
  have hflw := hpos i hi
  have heq : walkMin ((ekStep (outIdx names sN) (inIdx names eN))^[k]
      (buildFG names lookup sN eN)) (outIdx names sN)
      (bfsRun ((ekStep (outIdx names sN) (inIdx names eN))^[k]
        (buildFG names lookup sN eN)) (outIdx names sN) (inIdx names eN))
      (((ekStep (outIdx names sN) (inIdx names eN))^[k]
        (buildFG names lookup sN eN)).length + 1) (inIdx names eN) INF = 1 := by
    omega
  refine ⟨heq, ?_⟩
  unfold bfsStep
  dsimp only
  rw [if_neg hfound, if_neg (by omega)]
  exact heq

/-- Witness for `ek_bottleneck_one`: the two-room farm `s — t` at the first
iteration. -/
theorem ek_bottleneck_one_witness :
    ("s" ∈ ["s", "t"] ∧ "t" ∈ ["s", "t"] ∧
      ((bfsRun ((ekStep (outIdx ["s", "t"] "s") (inIdx ["s", "t"] "t"))^[0]
            (buildFG ["s", "t"]
              (fun nm => ([("s", (⟨"s", 0, 0, ["t"]⟩ : Room)),
                ("t", (⟨"t", 1, 1, ["s"]⟩ : Room))].lookup nm)) "s" "t"))
          (outIdx ["s", "t"] "s") (inIdx ["s", "t"] "t")).getD (inIdx ["s", "t"] "t")
          ⟨-1, -1⟩).u ≠ -1) ∧
    (walkMin ((ekStep (outIdx ["s", "t"] "s") (inIdx ["s", "t"] "t"))^[0]
          (buildFG ["s", "t"]
            (fun nm => ([("s", (⟨"s", 0, 0, ["t"]⟩ : Room)),
              ("t", (⟨"t", 1, 1, ["s"]⟩ : Room))].lookup nm)) "s" "t"))
        (outIdx ["s", "t"] "s")
        (bfsRun ((ekStep (outIdx ["s", "t"] "s") (inIdx ["s", "t"] "t"))^[0]
            (buildFG ["s", "t"]
              (fun nm => ([("s", (⟨"s", 0, 0, ["t"]⟩ : Room)),
                ("t", (⟨"t", 1, 1, ["s"]⟩ : Room))].lookup nm)) "s" "t"))
          (outIdx ["s", "t"] "s") (inIdx ["s", "t"] "t"))
        (((ekStep (outIdx ["s", "t"] "s") (inIdx ["s", "t"] "t"))^[0]
            (buildFG ["s", "t"]
              (fun nm => ([("s", (⟨"s", 0, 0, ["t"]⟩ : Room)),
                ("t", (⟨"t", 1, 1, ["s"]⟩ : Room))].lookup nm)) "s" "t")).length + 1)
        (inIdx ["s", "t"] "t") INF = 1 ∧
      (bfsStep ((ekStep (outIdx ["s", "t"] "s") (inIdx ["s", "t"] "t"))^[0]
            (buildFG ["s", "t"]
              (fun nm => ([("s", (⟨"s", 0, 0, ["t"]⟩ : Room)),
                ("t", (⟨"t", 1, 1, ["s"]⟩ : Room))].lookup nm)) "s" "t"))
          (outIdx ["s", "t"] "s") (inIdx ["s", "t"] "t")).2 = 1) :=
  ⟨⟨by decide, by decide, by decide⟩,
    ek_bottleneck_one ["s", "t"]
      (fun nm => ([("s", (⟨"s", 0, 0, ["t"]⟩ : Room)),
        ("t", (⟨"t", 1, 1, ["s"]⟩ : Room))].lookup nm)) "s" "t" 0
      (outIdx ["s", "t"] "s") (inIdx ["s", "t"] "t") _ rfl rfl rfl
      (by decide) (by decide)
      (by
        intro nm r h v hv
        have hm := lookup_mem h
        rcases List.mem_cons.mp hm with h1 | h1
        · injection h1 with ha hb
          subst ha
          subst hb
          simp only at hv
          simp at hv
          simp [hv]
        · rcases List.mem_cons.mp h1 with h2 | h2
          · injection h2 with ha hb
            subst ha
            subst hb
            simp only at hv
            simp at hv
            simp [hv]
          · exact absurd h2 (List.not_mem_nil _))
      (by decide)⟩


end LemIn
